import Mathlib

/-!
Verification of the Dechivo knowledge-graph construction and query pipeline.

The definitions below are shallow embeddings of the Python sources under
`knowledge-graph/scripts/` (`map_entities.py`, `deduplicate_entities.py`,
`kg_service.py`, `sparql_queries.py`) and
`backend/services/sfia_km_service.py`.  Python strings are modelled as
`List Char` (with `String` wrappers at the interface), Python `str.replace`
/ `str.lower` / `str.strip` as the executable functions `pyReplace` /
`pyLower` / `pyStrip` (ASCII-faithful), RDF graphs as insertion-ordered
duplicate-free `List Triple`, and dictionaries as association lists in
insertion order.
-/

namespace Dechivo

/-- Characters removed by Python `str.strip()` (ASCII whitespace). -/
def isPySpace (c : Char) : Bool :=
  c = ' ' || c = '\t' || c = '\n' || c = '\r' ||
  c = Char.ofNat 11 || c = Char.ofNat 12

/-- Python `str.lower()` restricted to ASCII (the only case the pipeline's
occupation labels exercise): maps `A`-`Z` to `a`-`z`. -/
def pyLower (s : List Char) : List Char := s.map Char.toLower

/-- Python `str.strip()`: drop leading and trailing whitespace. -/
def pyStrip (s : List Char) : List Char :=
  ((s.dropWhile isPySpace).reverse.dropWhile isPySpace).reverse

/-- Worker for `pyReplace`: scans the string one character at a time.
While `skip` is positive the character belongs to an occurrence that was
just replaced and is dropped; at `skip = 0`, if the pattern starts here the
replacement is emitted and the remaining `pat.length - 1` matched
characters are skipped, otherwise the character is copied.  This is
Python's left-to-right non-overlapping scan that resumes after each
replacement. -/
def pyReplaceAux (pat rep : List Char) : Nat → List Char → List Char
  | _, [] => []
  | Nat.succ k, _ :: t => pyReplaceAux pat rep k t
  | 0, c :: t =>
      if !pat.isEmpty && pat.isPrefixOf (c :: t) then
        rep ++ pyReplaceAux pat rep (pat.length - 1) t
      else
        c :: pyReplaceAux pat rep 0 t

/-- Python `s.replace(pat, rep)` for a non-empty `pat` (the scripts never
call `replace` with an empty pattern). -/
def pyReplace (s pat rep : List Char) : List Char := pyReplaceAux pat rep 0 s

/-- `pat` occurs as a contiguous substring of `s` (Python's `pat in s`). -/
def listContains (s pat : List Char) : Bool :=
  match s with
  | [] => pat.isEmpty
  | _ :: t => pat.isPrefixOf s || listContains t pat

/-- `EntityMapper.normalize_label` (`map_entities.py` lines 83-98):
lowercase, strip, then sequentially replace `" and "` by `" & "`,
`" / "` by `"/"` and a double space by a single space. -/
def normalizeMapL (s : List Char) : List Char :=
  pyReplace (pyReplace (pyReplace (pyStrip (pyLower s))
    " and ".data " & ".data) " / ".data "/".data) "  ".data " ".data

/-- `EntityDeduplicator.normalize_label` (`deduplicate_entities.py` lines
62-77): same as the mapper's normalization, followed by removing commas. -/
def normalizeDedupL (s : List Char) : List Char :=
  pyReplace (normalizeMapL s) ",".data "".data

/-- String-level wrapper for the mapper's `normalize_label`. -/
def normalizeMap (s : String) : String := ⟨normalizeMapL s.data⟩

/-- String-level wrapper for the deduplicator's `normalize_label`. -/
def normalizeDedup (s : String) : String := ⟨normalizeDedupL s.data⟩

/-- Canonical occupation id derived in
`EntityDeduplicator.create_canonical_entities` (`deduplicate_entities.py`
line 176): `normalize_label(label).replace(' ', '_').replace('/', '_')`. -/
def canonicalIdDedup (l : String) : String :=
  ⟨pyReplace (pyReplace (normalizeDedupL l.data) " ".data "_".data)
    "/".data "_".data⟩

/-- Canonical occupation id derived in `EntityMapper.generate_owl_mappings`
(`map_entities.py` line 206): same underscore substitution applied to the
mapper's normalization. -/
def canonicalIdMap (l : String) : String :=
  ⟨pyReplace (pyReplace (normalizeMapL l.data) " ".data "_".data)
    "/".data "_".data⟩

/-- If the pattern does not occur in `s`, `pyReplace` leaves `s` unchanged. -/
theorem pyReplace_eq_self_of_not_contains (s pat rep : List Char)
    (h : listContains s pat = false) : pyReplace s pat rep = s := by
  unfold pyReplace
  induction s with
  | nil => rfl
  | cons c t ih =>
    rw [listContains] at h
    rcases Bool.or_eq_false_iff.mp h with ⟨h1, h2⟩
    rw [pyReplaceAux, h1, Bool.and_false, if_neg (by simp), ih h2]

/-- Replacing a single character by a single character is a character map. -/
theorem pyReplace_single (a b : Char) (s : List Char) :
    pyReplace s [a] [b] = s.map (fun c => if c = a then b else c) := by
  unfold pyReplace
  induction s with
  | nil => rfl
  | cons c t ih =>
    rw [pyReplaceAux]
    by_cases hc : c = a
    · subst hc
      have hpre : [c].isPrefixOf (c :: t) = true := by
        simp [List.isPrefixOf]
      rw [hpre]
      simp only [List.isEmpty, Bool.not_false, Bool.and_true, if_pos rfl]
      simpa using ih
    · have hpre : [a].isPrefixOf (c :: t) = false := by
        simp [List.isPrefixOf]
        exact fun h => absurd h.symm hc
      rw [hpre, Bool.and_false, if_neg (by simp), ih]
      simp [hc]

/-- The character substitution performed by the two successive underscore
replacements in the canonical-id derivation. -/
def collapseUnderscore (s : List Char) : List Char :=
  s.map fun c => if c = ' ' then '_' else if c = '/' then '_' else c

/-- The canonical-id underscore substitution is the pointwise map sending
both spaces and slashes to underscores. -/
theorem underscore_eq_collapse (s : List Char) :
    pyReplace (pyReplace s " ".data "_".data) "/".data "_".data
      = collapseUnderscore s := by
  have h1 : " ".data = [' '] := rfl
  have h2 : "_".data = ['_'] := rfl
  have h3 : "/".data = ['/'] := rfl
  rw [h1, h2, h3, pyReplace_single, pyReplace_single, List.map_map,
    collapseUnderscore]
  apply List.map_congr_left
  intro c _
  by_cases hs : c = ' '
  · simp [hs]
  · by_cases hsl : c = '/'
    · simp [hs, hsl]
    · simp [hs, hsl]

theorem canonicalIdDedup_eq (l : String) :
    canonicalIdDedup l = ⟨collapseUnderscore (normalizeDedupL l.data)⟩ := by
  rw [canonicalIdDedup, underscore_eq_collapse]

theorem canonicalIdMap_eq (l : String) :
    canonicalIdMap l = ⟨collapseUnderscore (normalizeMapL l.data)⟩ := by
  rw [canonicalIdMap, underscore_eq_collapse]

/-- C4 (counterexample): label normalization is NOT idempotent.  On the
label `"a   b"` (three internal spaces) a single pass of the double-space
replacement leaves `"a  b"`, and a second application of `normalize_label`
collapses it further to `"a b"`; both the mapper's and the deduplicator's
normalization fail idempotence there. -/
theorem C4_counterexample :
    normalizeMap (normalizeMap "a   b") ≠ normalizeMap "a   b" ∧
    normalizeDedup (normalizeDedup "a   b") ≠ normalizeDedup "a   b" := by
  constructor <;> decide

/-- C4 (amended): `normalize_label` is idempotent on every label whose
normalized form is a fixed point of each normalization step — i.e. the
normalized form contains none of the replaced patterns (`" and "`,
`" / "`, a double space, and for the deduplicator's variant a comma) and
is unchanged by lowercasing and stripping.  Labels violating this (runs of
three or more spaces, overlapping `" and "` occurrences, commas adjacent
to `"and"`) are exactly where idempotence fails. -/
theorem C4_normalize_idempotent_on_stable_labels (l : String)
    (hm1 : listContains (normalizeMap l).data " and ".data = false)
    (hm2 : listContains (normalizeMap l).data " / ".data = false)
    (hm3 : listContains (normalizeMap l).data "  ".data = false)
    (hm4 : pyStrip (pyLower (normalizeMap l).data) = (normalizeMap l).data)
    (hd1 : listContains (normalizeDedup l).data " and ".data = false)
    (hd2 : listContains (normalizeDedup l).data " / ".data = false)
    (hd3 : listContains (normalizeDedup l).data "  ".data = false)
    (hd4 : listContains (normalizeDedup l).data ",".data = false)
    (hd5 : pyStrip (pyLower (normalizeDedup l).data) = (normalizeDedup l).data) :
    normalizeMap (normalizeMap l) = normalizeMap l ∧
    normalizeDedup (normalizeDedup l) = normalizeDedup l := by
  constructor
  · show (⟨normalizeMapL (normalizeMap l).data⟩ : String) = normalizeMap l
    rw [normalizeMapL, hm4, pyReplace_eq_self_of_not_contains _ _ _ hm1,
      pyReplace_eq_self_of_not_contains _ _ _ hm2,
      pyReplace_eq_self_of_not_contains _ _ _ hm3]
  · show (⟨normalizeDedupL (normalizeDedup l).data⟩ : String) = normalizeDedup l
    rw [normalizeDedupL, normalizeMapL, hd5,
      pyReplace_eq_self_of_not_contains _ _ _ hd1,
      pyReplace_eq_self_of_not_contains _ _ _ hd2,
      pyReplace_eq_self_of_not_contains _ _ _ hd3,
      pyReplace_eq_self_of_not_contains _ _ _ hd4]

/-- Witness for the amended C4 theorem at the label `"Software Developer"`. -/
theorem C4_witness :
    normalizeMap (normalizeMap "Software Developer")
        = normalizeMap "Software Developer" ∧
    normalizeDedup (normalizeDedup "Software Developer")
        = normalizeDedup "Software Developer" :=
  C4_normalize_idempotent_on_stable_labels "Software Developer"
    (by decide) (by decide) (by decide) (by decide) (by decide)
    (by decide) (by decide) (by decide) (by decide)

/-- C3 (counterexample): two duplicate groups whose representative labels
normalize to the different strings `"a b"` and `"a/b"` nevertheless derive
the same canonical id `"a_b"`, because the id derivation maps both spaces
and slashes to underscores.  This holds for the deduplicator's and the
mapper's id derivation alike. -/
theorem C3_counterexample :
    (normalizeDedup "a b" ≠ normalizeDedup "a/b" ∧
      canonicalIdDedup "a b" = canonicalIdDedup "a/b") ∧
    (normalizeMap "a b" ≠ normalizeMap "a/b" ∧
      canonicalIdMap "a b" = canonicalIdMap "a/b") := by
  refine ⟨⟨?_, ?_⟩, ?_, ?_⟩ <;> decide

/-- C3 (amended): two duplicate groups derive distinct canonical ids
provided their representative normalized labels remain distinct after
identifying spaces and slashes with underscores (the substitution the id
derivation applies); distinctness of the normalized labels alone does not
suffice. -/
theorem C3_canonical_id_distinct (l1 l2 : String)
    (hd : collapseUnderscore (normalizeDedupL l1.data)
        ≠ collapseUnderscore (normalizeDedupL l2.data))
    (hm : collapseUnderscore (normalizeMapL l1.data)
        ≠ collapseUnderscore (normalizeMapL l2.data)) :
    canonicalIdDedup l1 ≠ canonicalIdDedup l2 ∧
    canonicalIdMap l1 ≠ canonicalIdMap l2 := by
  constructor
  · intro h
    rw [canonicalIdDedup_eq, canonicalIdDedup_eq] at h
    exact hd (congrArg String.data h)
  · intro h
    rw [canonicalIdMap_eq, canonicalIdMap_eq] at h
    exact hm (congrArg String.data h)

/-- Witness for the amended C3 theorem at the labels `"nurse"` and
`"teacher"`. -/
theorem C3_witness :
    canonicalIdDedup "nurse" ≠ canonicalIdDedup "teacher" ∧
    canonicalIdMap "nurse" ≠ canonicalIdMap "teacher" :=
  C3_canonical_id_distinct "nurse" "teacher" (by decide) (by decide)

/-! ## RDF graph model (`rdflib.Graph` as used by `deduplicate_entities.py`)

A graph is a duplicate-free, insertion-ordered list of triples; `addT` is
`Graph.add` (a no-op when the triple is present); removal is by
filtering.  Literal nodes carry their lexical value and their
language/datatype tag. -/

/-- An RDF node: a URI reference or a literal with a language/datatype tag. -/
inductive Node where
  | uri (s : String)
  | lit (value : String) (tag : String)
deriving DecidableEq, Repr

/-- An RDF triple. -/
structure Triple where
  s : Node
  p : Node
  o : Node
deriving DecidableEq, Repr

def rdfType : Node := .uri "http://www.w3.org/1999/02/22-rdf-syntax-ns#type"
def rdfsLabel : Node := .uri "http://www.w3.org/2000/01/rdf-schema#label"
def owlSameAs : Node := .uri "http://www.w3.org/2002/07/owl#sameAs"
def dctermsDescription : Node := .uri "http://purl.org/dc/terms/description"
def dctermsCreated : Node := .uri "http://purl.org/dc/terms/created"
def dvOccupation : Node := .uri "http://dechivo.com/ontology/Occupation"
def dvFromFramework : Node := .uri "http://dechivo.com/ontology/fromFramework"
def dvHasVariants : Node := .uri "http://dechivo.com/ontology/hasVariants"

/-- The `DV_OCC` namespace prefix of canonical occupation URIs. -/
def dvOccPrefix : String := "http://dechivo.com/occupation/"

/-- The namespace shared by all URIs the deduplicator mints or references
as schema vocabulary (`DV` and `DV_OCC`). -/
def dechivoPrefix : String := "http://dechivo.com/"

/-- `rdflib.Graph.add`: insert a triple unless already present. -/
def addT (g : List Triple) (t : Triple) : List Triple :=
  if t ∈ g then g else g ++ [t]

/-- `str(node)` in rdflib: the URI text, or the literal's lexical value. -/
def Node.str : Node → String
  | .uri s => s
  | .lit v _ => v

/-- `rdflib.Graph.value(s, p)`: some object of a matching triple, or
`None`.  rdflib returns an arbitrary matching object; the model
deterministically returns the first in insertion order. -/
def valueOf (g : List Triple) (s p : Node) : Option Node :=
  ((g.filter (fun t => t.s = s ∧ t.p = p)).map (·.o)).head?

/-- One occupation entity as collected by
`EntityDeduplicator.find_occupations` (uri, label, occupation type). -/
structure Occ where
  uri : String
  label : String
  otype : String
deriving DecidableEq, Repr

/-- Keys of a Python dict in insertion order (first occurrence wins),
used to model `defaultdict` key order and `set()` iteration
deterministically. -/
def dedupFirstAux (seen : List String) : List String → List String
  | [] => []
  | a :: t =>
      if a ∈ seen then dedupFirstAux seen t
      else a :: dedupFirstAux (a :: seen) t

def dedupFirst (l : List String) : List String := dedupFirstAux [] l

/-- One duplicate group: the representative (first member's) raw label and
the member list, as produced by `EntityDeduplicator.group_duplicates`. -/
structure DupGroup where
  canonicalLabel : String
  members : List Occ
deriving DecidableEq, Repr

/-- The normalized-label keys of the occupation inventory, in first-seen
order (`label_groups` dict key order). -/
def groupKeys (occs : List Occ) : List String :=
  dedupFirst (occs.map (fun o => normalizeDedup o.label))

/-- The occupations sharing one normalized-label key, in inventory order
(`label_groups[normalized]`). -/
def membersOf (occs : List Occ) (k : String) : List Occ :=
  occs.filter (fun o => normalizeDedup o.label = k)

/-- `EntityDeduplicator.group_duplicates` (lines 119-164): bucket the
occupations by normalized label and keep the buckets of size at least two,
labelling each group by its first member's raw label. -/
def groupDuplicates (occs : List Occ) : List DupGroup :=
  ((groupKeys occs).map (fun k => membersOf occs k)).filterMap
    (fun g =>
      match g with
      | [] => none
      | o :: rest => if 0 < rest.length then some ⟨o.label, o :: rest⟩ else none)

/-- Framework provenance detection by URI substring
(`create_canonical_entities` lines 196-204): an `elif` chain contributing
at most one framework name. -/
def frameworkOf (uri : String) : List String :=
  if listContains uri.data "europa.eu/esco".data then ["ESCO"]
  else if listContains uri.data "onetcenter.org".data then ["O*NET"]
  else if listContains uri.data "skillsframework.sg".data then ["Singapore"]
  else if listContains uri.data "canada.ca".data then ["Canada"]
  else []

/-- State threaded through the per-member loop of
`create_canonical_entities`: the graph plus the accumulated distinct
descriptions and framework names. -/
structure CreateSt where
  graph : List Triple
  descriptions : List String
  frameworks : List String

/-- One iteration of the member loop of `create_canonical_entities`
(lines 187-207): look up the member's description, collect its framework,
and add the `owl:sameAs` triple from the canonical entity. -/
def createMemberStep (curi : Node) (st : CreateSt) (m : Occ) : CreateSt :=
  let desc := valueOf st.graph (.uri m.uri) dctermsDescription
  let descriptions :=
    match desc with
    | some d =>
        if d.str ≠ "" ∧ d.str ∉ st.descriptions then st.descriptions ++ [d.str]
        else st.descriptions
    | none => st.descriptions
  let frameworks := st.frameworks ++ frameworkOf m.uri
  let graph := addT st.graph ⟨curi, owlSameAs, .uri m.uri⟩
  ⟨graph, descriptions, frameworks⟩

/-- The canonical URI minted for a duplicate group. -/
def canonicalUri (grp : DupGroup) : Node :=
  .uri (dvOccPrefix ++ canonicalIdDedup grp.canonicalLabel)

/-- `create_canonical_entities` body for one duplicate group (lines
174-221): add the canonical entity's type and label, run the member loop,
then add the combined description (when any), one framework-provenance
triple per distinct framework (`set(frameworks)`, modelled in first-seen
order), the creation date and the variant count. -/
def createGroup (today : String) (g : List Triple) (grp : DupGroup) :
    List Triple :=
  let curi := canonicalUri grp
  let g1 := addT g ⟨curi, rdfType, dvOccupation⟩
  let g2 := addT g1 ⟨curi, rdfsLabel, .lit grp.canonicalLabel "en"⟩
  let st := grp.members.foldl (createMemberStep curi) ⟨g2, [], []⟩
  let g3 :=
    if st.descriptions ≠ [] then
      addT st.graph ⟨curi, dctermsDescription,
        .lit (String.intercalate " | " (st.descriptions.take 3)) "en"⟩
    else st.graph
  let g4 := (dedupFirst st.frameworks).foldl
    (fun h fw => addT h ⟨curi, dvFromFramework, .lit fw ""⟩) g3
  let g5 := addT g4 ⟨curi, dctermsCreated, .lit today "xsd:date"⟩
  addT g5 ⟨curi, dvHasVariants, .lit (toString grp.members.length) "xsd:integer"⟩

/-- `create_canonical_entities` over all duplicate groups, reporting
`triples_added` as the measured growth of the graph (lines 172, 223-229). -/
def createCanonical (g : List Triple) (groups : List DupGroup)
    (today : String) : List Triple × Nat :=
  let g' := groups.foldl (createGroup today) g
  (g', g'.length - g.length)

/-- Predicates preserved on stripped duplicates
(`remove_duplicate_relationships` line 255). -/
def stripPreds : List Node := [rdfType, owlSameAs, rdfsLabel]

/-- A triple removed by the subject pass over a duplicate URI. -/
def subjHit (duri : String) (t : Triple) : Bool :=
  decide (t.s = Node.uri duri) && !(decide (t.p ∈ stripPreds))

/-- A triple removed by the object pass over a duplicate URI. -/
def objHit (duri : String) (t : Triple) : Bool :=
  decide (t.o = Node.uri duri) && !(decide (t.p = owlSameAs))

/-- `remove_duplicate_relationships` body for one duplicate URI (lines
251-263): snapshot and remove the non-exempt subject triples, then the
non-`sameAs` object triples, incrementing the removal counter once per
removed triple.  The source iterates a snapshot list and calls
`graph.remove` per element; as the graph is a set, this equals filtering
and counting the filtered-out triples. -/
def removeDup (acc : List Triple × Nat) (duri : String) : List Triple × Nat :=
  let g := acc.1
  let g1 := g.filter (fun t => !(subjHit duri t))
  let r1 := acc.2 + (g.filter (fun t => subjHit duri t)).length
  let g2 := g1.filter (fun t => !(objHit duri t))
  let r2 := r1 + (g1.filter (fun t => objHit duri t)).length
  (g2, r2)

/-- `remove_duplicate_relationships` for one group (lines 241-263): the
first member is kept, every later member is stripped. -/
def removeGroup (acc : List Triple × Nat) (grp : DupGroup) :
    List Triple × Nat :=
  (grp.members.drop 1).foldl (fun a m => removeDup a m.uri) acc

/-- `remove_duplicate_relationships` over all duplicate groups (lines
231-267), returning the graph and the `removed` counter. -/
def removeDuplicateRelationships (g : List Triple)
    (groups : List DupGroup) : List Triple × Nat :=
  groups.foldl removeGroup (g, 0)

/-- Result of a full deduplicator run. -/
structure DedupRun where
  graph : List Triple
  added : Nat
  removed : Nat
deriving Repr

/-- `EntityDeduplicator.run` steps 3-4 (lines 327-331): create the
canonical entities, then remove the duplicate relationships, reporting
both deltas. -/
def runDeduplicator (g : List Triple) (groups : List DupGroup)
    (today : String) : DedupRun :=
  let c := createCanonical g groups today
  let r := removeDuplicateRelationships c.1 groups
  ⟨r.1, c.2, r.2⟩

/-- The full pipeline from an occupation inventory: group duplicates by
normalized label, then run the deduplicator (steps 2-4 of `run`). -/
def runFromOccupations (g : List Triple) (occs : List Occ)
    (today : String) : DedupRun :=
  runDeduplicator g (groupDuplicates occs) today

/-! ### Length accounting for the deduplicator (claim C2) -/

theorem length_le_addT (g : List Triple) (t : Triple) :
    g.length ≤ (addT g t).length := by
  unfold addT
  split
  · exact le_refl _
  · simp

theorem mem_addT_of_mem {g : List Triple} {t x : Triple} (h : x ∈ g) :
    x ∈ addT g t := by
  unfold addT
  split
  · exact h
  · exact List.mem_append_left _ h

theorem self_mem_addT (g : List Triple) (t : Triple) : t ∈ addT g t := by
  unfold addT
  split
  · assumption
  · simp

theorem createMemberStep_len (curi : Node) (st : CreateSt) (m : Occ) :
    st.graph.length ≤ (createMemberStep curi st m).graph.length := by
  simp only [createMemberStep]
  exact length_le_addT _ _

theorem createMemberStep_mem (curi : Node) (st : CreateSt) (m : Occ)
    {x : Triple} (h : x ∈ st.graph) :
    x ∈ (createMemberStep curi st m).graph := by
  simp only [createMemberStep]
  exact mem_addT_of_mem h

theorem foldl_cms_len (curi : Node) :
    ∀ (ms : List Occ) (st : CreateSt),
      st.graph.length ≤ ((ms.foldl (createMemberStep curi) st)).graph.length
  | [], _ => le_refl _
  | m :: ms, st =>
      le_trans (createMemberStep_len curi st m)
        (foldl_cms_len curi ms (createMemberStep curi st m))

theorem foldl_cms_mem (curi : Node) :
    ∀ (ms : List Occ) (st : CreateSt) {x : Triple}, x ∈ st.graph →
      x ∈ ((ms.foldl (createMemberStep curi) st)).graph
  | [], _, _, h => h
  | m :: ms, st, _, h =>
      foldl_cms_mem curi ms (createMemberStep curi st m)
        (createMemberStep_mem curi st m h)

theorem foldl_addT_len {α : Type} (f : α → Triple) :
    ∀ (l : List α) (g : List Triple),
      g.length ≤ (l.foldl (fun h a => addT h (f a)) g).length
  | [], _ => le_refl _
  | a :: l, g =>
      le_trans (length_le_addT g (f a)) (foldl_addT_len f l (addT g (f a)))

theorem foldl_addT_mem {α : Type} (f : α → Triple) :
    ∀ (l : List α) (g : List Triple) {x : Triple}, x ∈ g →
      x ∈ (l.foldl (fun h a => addT h (f a)) g)
  | [], _, _, h => h
  | a :: l, g, _, h => foldl_addT_mem f l (addT g (f a)) (mem_addT_of_mem h)

theorem createGroup_len (today : String) (g : List Triple) (grp : DupGroup) :
    g.length ≤ (createGroup today g grp).length := by
  simp only [createGroup]
  refine le_trans ?_ (length_le_addT _ _)
  refine le_trans ?_ (length_le_addT _ _)
  refine le_trans ?_ (foldl_addT_len _ (dedupFirst _) _)
  split
  · refine le_trans ?_ (length_le_addT _ _)
    exact le_trans (length_le_addT _ _)
      (le_trans (length_le_addT _ _)
        (foldl_cms_len (canonicalUri grp) grp.members
          ⟨addT (addT g ⟨canonicalUri grp, rdfType, dvOccupation⟩)
            ⟨canonicalUri grp, rdfsLabel, .lit grp.canonicalLabel "en"⟩, [], []⟩))
  · exact le_trans (length_le_addT _ _)
      (le_trans (length_le_addT _ _)
        (foldl_cms_len (canonicalUri grp) grp.members
          ⟨addT (addT g ⟨canonicalUri grp, rdfType, dvOccupation⟩)
            ⟨canonicalUri grp, rdfsLabel, .lit grp.canonicalLabel "en"⟩, [], []⟩))

theorem createGroup_mem (today : String) (g : List Triple) (grp : DupGroup)
    {x : Triple} (h : x ∈ g) : x ∈ createGroup today g grp := by
  simp only [createGroup]
  apply mem_addT_of_mem
  apply mem_addT_of_mem
  apply foldl_addT_mem
  split
  · exact mem_addT_of_mem
      (foldl_cms_mem _ grp.members _ (mem_addT_of_mem (mem_addT_of_mem h)))
  · exact foldl_cms_mem _ grp.members _ (mem_addT_of_mem (mem_addT_of_mem h))

theorem createAll_len (today : String) :
    ∀ (groups : List DupGroup) (g : List Triple),
      g.length ≤ (groups.foldl (createGroup today) g).length
  | [], _ => le_refl _
  | grp :: gs, g =>
      le_trans (createGroup_len today g grp)
        (createAll_len today gs (createGroup today g grp))

theorem createAll_mem (today : String) :
    ∀ (groups : List DupGroup) (g : List Triple) {x : Triple}, x ∈ g →
      x ∈ groups.foldl (createGroup today) g
  | [], _, _, h => h
  | grp :: gs, g, _, h =>
      createAll_mem today gs (createGroup today g grp)
        (createGroup_mem today g grp h)

theorem createCanonical_len (g : List Triple) (groups : List DupGroup)
    (today : String) :
    (createCanonical g groups today).1.length
      = g.length + (createCanonical g groups today).2 := by
  simp only [createCanonical]
  exact (Nat.add_sub_cancel' (createAll_len today groups g)).symm

theorem filter_partition (l : List Triple) (f : Triple → Bool) :
    (l.filter (fun t => !(f t))).length + (l.filter (fun t => f t)).length
      = l.length := by
  induction l with
  | nil => rfl
  | cons a t ih =>
    cases h : f a <;> simp [List.filter_cons, h] <;> omega

theorem removeDup_invariant (acc : List Triple × Nat) (duri : String) :
    (removeDup acc duri).1.length + (removeDup acc duri).2
      = acc.1.length + acc.2 := by
  simp only [removeDup]
  have h1 := filter_partition acc.1 (subjHit duri)
  have h2 := filter_partition (acc.1.filter (fun t => !(subjHit duri t)))
    (objHit duri)
  omega

theorem foldl_sum_invariant {α : Type}
    (f : (List Triple × Nat) → α → (List Triple × Nat))
    (hf : ∀ acc a, (f acc a).1.length + (f acc a).2 = acc.1.length + acc.2) :
    ∀ (l : List α) (acc : List Triple × Nat),
      (l.foldl f acc).1.length + (l.foldl f acc).2 = acc.1.length + acc.2
  | [], _ => rfl
  | a :: l, acc => by
      rw [List.foldl_cons, foldl_sum_invariant f hf l (f acc a), hf acc a]

theorem removeGroup_invariant (acc : List Triple × Nat) (grp : DupGroup) :
    (removeGroup acc grp).1.length + (removeGroup acc grp).2
      = acc.1.length + acc.2 := by
  simp only [removeGroup]
  exact foldl_sum_invariant (fun a m => removeDup a m.uri)
    (fun acc' m => removeDup_invariant acc' m.uri) (grp.members.drop 1) acc

theorem removeAll_invariant (g : List Triple) (groups : List DupGroup) :
    (removeDuplicateRelationships g groups).1.length
        + (removeDuplicateRelationships g groups).2 = g.length := by
  have h := foldl_sum_invariant removeGroup removeGroup_invariant groups (g, 0)
  simpa [removeDuplicateRelationships] using h

/-! ### Grouping and stripping (claim C10) -/

theorem mem_dedupFirstAux (l : List String) :
    ∀ (seen : List String) (a : String),
      a ∈ dedupFirstAux seen l ↔ (a ∈ l ∧ a ∉ seen) := by
  induction l with
  | nil => intro seen a; simp [dedupFirstAux]
  | cons b t ih =>
    intro seen a
    by_cases hb : b ∈ seen
    · rw [dedupFirstAux, if_pos hb, ih seen a]
      constructor
      · rintro ⟨h1, h2⟩
        exact ⟨List.mem_cons_of_mem _ h1, h2⟩
      · rintro ⟨h1, h2⟩
        rcases List.mem_cons.mp h1 with h | h
        · exact absurd (h ▸ hb) h2
        · exact ⟨h, h2⟩
    · rw [dedupFirstAux, if_neg hb]
      rw [List.mem_cons, ih (b :: seen) a]
      constructor
      · rintro (h | ⟨h1, h2⟩)
        · exact ⟨List.mem_cons.mpr (Or.inl h), h ▸ hb⟩
        · exact ⟨List.mem_cons_of_mem _ h1,
            fun hc => h2 (List.mem_cons_of_mem _ hc)⟩
      · rintro ⟨h1, h2⟩
        rcases List.mem_cons.mp h1 with h | h
        · exact Or.inl h
        · by_cases hab : a = b
          · exact Or.inl hab
          · refine Or.inr ⟨h, ?_⟩
            intro hc
            rcases List.mem_cons.mp hc with h' | h'
            · exact hab h'
            · exact h2 h'

theorem mem_dedupFirst {l : List String} {a : String} :
    a ∈ dedupFirst l ↔ a ∈ l := by
  rw [dedupFirst, mem_dedupFirstAux]
  simp

theorem one_lt_length_of_two_mem {α : Type} {l : List α} {a b : α}
    (ha : a ∈ l) (hb : b ∈ l) (hne : a ≠ b) : 1 < l.length := by
  cases l with
  | nil => simp at ha
  | cons x t =>
    cases t with
    | nil =>
      simp only [List.mem_singleton] at ha hb
      exact absurd (ha.trans hb.symm) hne
    | cons y u => simp only [List.length_cons]; omega

theorem exists_dup_group {occs : List Occ} {o1 o2 : Occ}
    (h1 : o1 ∈ occs) (h2 : o2 ∈ occs) (hne : o1 ≠ o2)
    (hkey : normalizeDedup o1.label = normalizeDedup o2.label) :
    ∃ grp ∈ groupDuplicates occs, o1 ∈ grp.members ∧ o2 ∈ grp.members := by
  have hk : normalizeDedup o1.label ∈ groupKeys occs := by
    rw [groupKeys, mem_dedupFirst]
    exact List.mem_map.mpr ⟨o1, h1, rfl⟩
  have ho1 : o1 ∈ membersOf occs (normalizeDedup o1.label) :=
    List.mem_filter.mpr ⟨h1, by simp⟩
  have ho2 : o2 ∈ membersOf occs (normalizeDedup o1.label) :=
    List.mem_filter.mpr ⟨h2, by simp [hkey]⟩
  have hlen := one_lt_length_of_two_mem ho1 ho2 hne
  rcases hml : membersOf occs (normalizeDedup o1.label) with _ | ⟨hd, tl⟩
  · rw [hml] at ho1; simp at ho1
  · rw [hml] at ho1 ho2 hlen
    have htl : 0 < tl.length := by simp at hlen; omega
    refine ⟨⟨hd.label, hd :: tl⟩, ?_, ho1, ho2⟩
    rw [groupDuplicates]
    apply List.mem_filterMap.mpr
    refine ⟨membersOf occs (normalizeDedup o1.label),
      List.mem_map.mpr ⟨normalizeDedup o1.label, hk, rfl⟩, ?_⟩
    rw [hml]
    simp [htl]

theorem groupDuplicates_members_sub {occs : List Occ} {grp : DupGroup}
    (h : grp ∈ groupDuplicates occs) : ∀ o ∈ grp.members, o ∈ occs := by
  rw [groupDuplicates] at h
  obtain ⟨a, ha, hfa⟩ := List.mem_filterMap.mp h
  obtain ⟨k, _, hak⟩ := List.mem_map.mp ha
  intro o ho
  cases a with
  | nil => simp at hfa
  | cons o' rest =>
    by_cases hrl : 0 < rest.length
    · simp only [if_pos hrl] at hfa
      have hmem : grp.members = o' :: rest := by
        cases hfa; rfl
      rw [hmem] at ho
      rw [← hak] at ho
      exact (List.mem_filter.mp ho).1
    · simp only [if_neg hrl] at hfa
      exact Option.noConfusion hfa

theorem mem_removeDup {acc : List Triple × Nat} {duri : String}
    {t : Triple} :
    t ∈ (removeDup acc duri).1 ↔
      t ∈ acc.1 ∧ subjHit duri t = false ∧ objHit duri t = false := by
  simp only [removeDup, List.mem_filter, Bool.not_eq_true']
  tauto

theorem mem_foldl_removeDup (ms : List Occ) :
    ∀ (acc : List Triple × Nat) (t : Triple),
      t ∈ (ms.foldl (fun a m => removeDup a m.uri) acc).1 ↔
        t ∈ acc.1 ∧
          ∀ m ∈ ms, subjHit m.uri t = false ∧ objHit m.uri t = false := by
  induction ms with
  | nil => intro acc t; simp
  | cons m ms ih =>
    intro acc t
    rw [List.foldl_cons, ih (removeDup acc m.uri) t]
    constructor
    · rintro ⟨hm, hrest⟩
      obtain ⟨h1, h2, h3⟩ := mem_removeDup.mp hm
      refine ⟨h1, ?_⟩
      intro m' hm'
      rcases List.mem_cons.mp hm' with h | h
      · exact h ▸ ⟨h2, h3⟩
      · exact hrest m' h
    · rintro ⟨h1, h2⟩
      refine ⟨mem_removeDup.mpr ⟨h1, (h2 m (List.mem_cons_self m ms)).1,
        (h2 m (List.mem_cons_self m ms)).2⟩, ?_⟩
      intro m' hm'
      exact h2 m' (List.mem_cons_of_mem m hm')

theorem mem_removeGroup {acc : List Triple × Nat} {grp : DupGroup}
    {t : Triple} :
    t ∈ (removeGroup acc grp).1 ↔
      t ∈ acc.1 ∧ ∀ m ∈ grp.members.drop 1,
        subjHit m.uri t = false ∧ objHit m.uri t = false := by
  rw [removeGroup]
  exact mem_foldl_removeDup (grp.members.drop 1) acc t

theorem mem_removeAll (groups : List DupGroup) :
    ∀ (acc : List Triple × Nat) (t : Triple),
      t ∈ (groups.foldl removeGroup acc).1 ↔
        t ∈ acc.1 ∧ ∀ grp ∈ groups, ∀ m ∈ grp.members.drop 1,
          subjHit m.uri t = false ∧ objHit m.uri t = false := by
  induction groups with
  | nil => intro acc t; simp
  | cons grp gs ih =>
    intro acc t
    rw [List.foldl_cons, ih (removeGroup acc grp) t]
    constructor
    · rintro ⟨hm, hrest⟩
      obtain ⟨h1, h2⟩ := mem_removeGroup.mp hm
      refine ⟨h1, ?_⟩
      intro grp' hg'
      rcases List.mem_cons.mp hg' with h | h
      · exact h ▸ h2
      · exact hrest grp' h
    · rintro ⟨h1, h2⟩
      refine ⟨mem_removeGroup.mpr ⟨h1, h2 grp (List.mem_cons_self grp gs)⟩, ?_⟩
      intro grp' hg'
      exact h2 grp' (List.mem_cons_of_mem grp hg')

theorem ctriple_mem_createGroup (today : String) (g : List Triple)
    (grp : DupGroup) :
    Triple.mk (canonicalUri grp) rdfType dvOccupation
      ∈ createGroup today g grp := by
  simp only [createGroup]
  apply mem_addT_of_mem
  apply mem_addT_of_mem
  apply foldl_addT_mem
  split
  · exact mem_addT_of_mem
      (foldl_cms_mem _ grp.members _ (mem_addT_of_mem (self_mem_addT _ _)))
  · exact foldl_cms_mem _ grp.members _ (mem_addT_of_mem (self_mem_addT _ _))

theorem ctriple_mem_createAll (today : String) :
    ∀ (groups : List DupGroup) (g : List Triple) (grp : DupGroup),
      grp ∈ groups →
      Triple.mk (canonicalUri grp) rdfType dvOccupation
        ∈ groups.foldl (createGroup today) g := by
  intro groups
  induction groups with
  | nil => intro g grp h; simp at h
  | cons grp' gs ih =>
    intro g grp h
    rcases List.mem_cons.mp h with heq | hmem
    · subst heq
      exact createAll_mem today gs _ (ctriple_mem_createGroup today g grp)
    · exact ih _ grp hmem

theorem dechivo_prefixed_ne {x u : String}
    (hx : dechivoPrefix.data <+: x.data)
    (hu : dechivoPrefix.data.isPrefixOf u.data = false) :
    Node.uri x ≠ Node.uri u := by
  intro hc
  have hxu : x = u := by injection hc
  have htrue : dechivoPrefix.data.isPrefixOf u.data = true :=
    List.isPrefixOf_iff_prefix.mpr (hxu ▸ hx)
  simp [hu] at htrue

theorem canonicalUri_prefixed (grp : DupGroup) :
    dechivoPrefix.data <+: (dvOccPrefix ++ canonicalIdDedup grp.canonicalLabel).data := by
  rw [String.data_append]
  refine List.IsPrefix.trans ?_ (List.prefix_append _ _)
  decide

theorem subjHit_eq_false_iff (duri : String) (t : Triple) :
    subjHit duri t = false ↔ (t.s = Node.uri duri → t.p ∈ stripPreds) := by
  simp only [subjHit, Bool.and_eq_false_iff, decide_eq_false_iff_not,
    Bool.not_eq_false', decide_eq_true_eq]
  tauto

theorem objHit_eq_false_iff (duri : String) (t : Triple) :
    objHit duri t = false ↔ (t.o = Node.uri duri → t.p = owlSameAs) := by
  simp only [objHit, Bool.and_eq_false_iff, decide_eq_false_iff_not,
    Bool.not_eq_false', decide_eq_true_eq]
  tauto

theorem runFromOccupations_graph (g0 : List Triple) (occs : List Occ)
    (today : String) :
    (runFromOccupations g0 occs today).graph
      = ((groupDuplicates occs).foldl removeGroup
          ((groupDuplicates occs).foldl (createGroup today) g0, 0)).1 := rfl

/-- C10: the Deduplicator's duplicate grouping is by normalized label
alone — no multi-framework requirement.  Any two distinct inventory
entries whose labels normalize identically (even from the same source
framework) land in one duplicate group; that group gets a canonical
entity (present in the final graph); every non-first member of the group
is stripped of its graph edges (only `rdf:type` / `owl:sameAs` /
`rdfs:label` subject triples and `owl:sameAs` object triples survive);
and any original triple touching no stripped member — in particular the
kept first member's relationship triples to untouched nodes — survives
the run.  The URI hypothesis states that inventory entities do not sit in
the reserved `http://dechivo.com/` namespace the deduplicator mints
canonical entities in. -/
theorem C10_group_by_normalized_label_and_strip
    (g0 : List Triple) (occs : List Occ) (today : String) (o1 o2 : Occ)
    (h1 : o1 ∈ occs) (h2 : o2 ∈ occs) (hne : o1 ≠ o2)
    (hkey : normalizeDedup o1.label = normalizeDedup o2.label)
    (hpfx : ∀ o ∈ occs, dechivoPrefix.data.isPrefixOf o.uri.data = false) :
    ∃ grp ∈ groupDuplicates occs,
      o1 ∈ grp.members ∧ o2 ∈ grp.members ∧
      Triple.mk (canonicalUri grp) rdfType dvOccupation
          ∈ (runFromOccupations g0 occs today).graph ∧
      (∀ m ∈ grp.members.drop 1,
        ∀ t ∈ (runFromOccupations g0 occs today).graph,
          (t.s = Node.uri m.uri → t.p ∈ stripPreds) ∧
          (t.o = Node.uri m.uri → t.p = owlSameAs)) ∧
      (∀ t ∈ g0,
        (∀ grp' ∈ groupDuplicates occs, ∀ m ∈ grp'.members.drop 1,
          t.s ≠ Node.uri m.uri ∧ t.o ≠ Node.uri m.uri) →
        t ∈ (runFromOccupations g0 occs today).graph) := by
  obtain ⟨grp, hgrp, ho1, ho2⟩ := exists_dup_group h1 h2 hne hkey
  refine ⟨grp, hgrp, ho1, ho2, ?_, ?_, ?_⟩
  · rw [runFromOccupations_graph]
    apply (mem_removeAll _ _ _).mpr
    refine ⟨ctriple_mem_createAll today _ g0 grp hgrp, ?_⟩
    intro grp' hgrp' m hm
    have hmo : m ∈ occs :=
      groupDuplicates_members_sub hgrp' m (List.mem_of_mem_drop hm)
    have hmu := hpfx m hmo
    constructor
    · apply (subjHit_eq_false_iff _ _).mpr
      intro hs
      exact absurd hs (dechivo_prefixed_ne (canonicalUri_prefixed grp) hmu)
    · apply (objHit_eq_false_iff _ _).mpr
      intro hobj
      exact absurd hobj (dechivo_prefixed_ne (by decide) hmu)
  · intro m hm t ht
    rw [runFromOccupations_graph] at ht
    obtain ⟨_, hall⟩ := (mem_removeAll _ _ _).mp ht
    obtain ⟨hsj, hoj⟩ := hall grp hgrp m hm
    exact ⟨(subjHit_eq_false_iff _ _).mp hsj, (objHit_eq_false_iff _ _).mp hoj⟩
  · intro t ht hno
    rw [runFromOccupations_graph]
    apply (mem_removeAll _ _ _).mpr
    refine ⟨createAll_mem today _ g0 ht, ?_⟩
    intro grp' hgrp' m hm
    obtain ⟨hs, ho⟩ := hno grp' hgrp' m hm
    exact ⟨(subjHit_eq_false_iff _ _).mpr (fun hc => absurd hc hs),
      (objHit_eq_false_iff _ _).mpr (fun hc => absurd hc ho)⟩

/-- Concrete two-entry inventory for the C10 witness: two occupations from
the same (unknown) framework whose labels normalize identically. -/
def w10occs : List Occ :=
  [⟨"http://example.org/occ/1", "Nurse", "http://example.org/Occupation"⟩,
   ⟨"http://example.org/occ/2", "nurse ", "http://example.org/Occupation"⟩]

/-- Concrete input graph for the C10 witness. -/
def w10graph : List Triple :=
  [⟨.uri "http://example.org/occ/1", rdfType, .uri "http://example.org/Occupation"⟩,
   ⟨.uri "http://example.org/occ/2", rdfType, .uri "http://example.org/Occupation"⟩,
   ⟨.uri "http://example.org/occ/2", .uri "http://example.org/requires",
      .uri "http://example.org/skill/s1"⟩,
   ⟨.uri "http://example.org/skill/s1", rdfsLabel, .lit "triage" "en"⟩]

/-- Witness for the C10 theorem on a concrete two-member inventory. -/
theorem C10_witness :
    ∃ grp ∈ groupDuplicates w10occs,
      (w10occs.get ⟨0, by decide⟩) ∈ grp.members ∧
      (w10occs.get ⟨1, by decide⟩) ∈ grp.members ∧
      Triple.mk (canonicalUri grp) rdfType dvOccupation
          ∈ (runFromOccupations w10graph w10occs "2026-10-12").graph ∧
      (∀ m ∈ grp.members.drop 1,
        ∀ t ∈ (runFromOccupations w10graph w10occs "2026-10-12").graph,
          (t.s = Node.uri m.uri → t.p ∈ stripPreds) ∧
          (t.o = Node.uri m.uri → t.p = owlSameAs)) ∧
      (∀ t ∈ w10graph,
        (∀ grp' ∈ groupDuplicates w10occs, ∀ m ∈ grp'.members.drop 1,
          t.s ≠ Node.uri m.uri ∧ t.o ≠ Node.uri m.uri) →
        t ∈ (runFromOccupations w10graph w10occs "2026-10-12").graph) :=
  C10_group_by_normalized_label_and_strip w10graph w10occs "2026-10-12"
    (w10occs.get ⟨0, by decide⟩) (w10occs.get ⟨1, by decide⟩)
    (by decide) (by decide) (by decide) (by decide) (by decide)

/-- C2: after a full Deduplicator run (create canonical entities, then
remove duplicate relationships), for every input graph and duplicate-group
set the final triple count equals the original triple count minus the
reported `triples_removed` delta plus the reported `triples_added` delta,
exactly. -/
theorem C2_dedup_triple_accounting (g : List Triple)
    (groups : List DupGroup) (today : String) :
    ((runDeduplicator g groups today).graph.length : ℤ)
      = (g.length : ℤ) - (runDeduplicator g groups today).removed
        + (runDeduplicator g groups today).added := by
  have hc := createCanonical_len g groups today
  have hr := removeAll_invariant (createCanonical g groups today).1 groups
  simp only [runDeduplicator] at *
  omega

/-! ## Entity Resolver (`map_entities.py`)

The mapper's occupation inventory `self.occupations` is a dict with the
four fixed framework keys `ca`, `esco`, `onet`, `sg` (insertion order);
each maps URIs to occupation records.  `defaultdict(list)` indexes and the
`self.mappings` dict are modelled as insertion-ordered association lists.
A mapping entry's per-framework member lists are modelled as one
framework-tagged list (grouped per framework in fixed framework order when
appended, which preserves each framework's own list exactly). -/

/-- The four source frameworks, in the inventory dict's insertion order. -/
inductive Fw where
  | ca
  | esco
  | onet
  | sg
deriving DecidableEq, Repr

def Fw.name : Fw → String
  | .ca => "ca"
  | .esco => "esco"
  | .onet => "onet"
  | .sg => "sg"

/-- `self.occupations` key order, also the `frameworks` list of
`find_fuzzy_matches`. -/
def fwList : List Fw := [.ca, .esco, .onet, .sg]

/-- One occupation record loaded by `EntityMapper.load_occupations`
(uri, primary label, alternate labels). -/
structure MOcc where
  uri : String
  label : String
  altLabels : List String
deriving DecidableEq, Repr

/-- The mapper's occupation inventory. -/
structure Inventory where
  ca : List MOcc
  esco : List MOcc
  onet : List MOcc
  sg : List MOcc
deriving Repr

def Inventory.occs (inv : Inventory) : Fw → List MOcc
  | .ca => inv.ca
  | .esco => inv.esco
  | .onet => inv.onet
  | .sg => inv.sg

/-- The normalized keys one occupation is indexed under in
`find_exact_matches` (primary label first, then every alternate label). -/
def occKeys (o : MOcc) : List String :=
  normalizeMap o.label :: o.altLabels.map normalizeMap

/-- `defaultdict(list)` append: extend the bucket of `k` in place, or
append a new singleton bucket at the end. -/
def indexAdd (idx : List (String × List (Fw × MOcc))) (k : String)
    (v : Fw × MOcc) : List (String × List (Fw × MOcc)) :=
  match idx with
  | [] => [(k, [v])]
  | (k', vs) :: rest =>
      if k' = k then (k', vs ++ [v]) :: rest
      else (k', vs) :: indexAdd rest k v

/-- The `label_index` of `find_exact_matches` (lines 117-127): every
occupation of every framework indexed under each of its normalized
labels. -/
def buildIndex (inv : Inventory) : List (String × List (Fw × MOcc)) :=
  fwList.foldl (fun idx fw =>
    (inv.occs fw).foldl (fun idx2 o =>
      (occKeys o).foldl (fun idx3 k => indexAdd idx3 k (fw, o)) idx2) idx) []

/-- The bucket of a key in an index (empty when absent). -/
def bucketOf (idx : List (String × List (Fw × MOcc))) (k : String) :
    List (Fw × MOcc) :=
  match idx with
  | [] => []
  | (k', vs) :: rest => if k' = k then vs else bucketOf rest k

/-- One entry of `self.mappings`: the match type, the confidence, and the
per-framework member (uri, label) pairs, tagged with their framework. -/
structure MapEntry where
  mtype : String
  confidence : ℚ
  members : List (Fw × String × String)
deriving DecidableEq, Repr

/-- A fresh `defaultdict(list)` mapping entry. -/
def emptyEntry : MapEntry := ⟨"", 0, []⟩

/-- `self.mappings` as an insertion-ordered association list. -/
def Mappings := List (String × MapEntry)

def mapLookup (ms : List (String × MapEntry)) (k : String) :
    Option MapEntry :=
  match ms with
  | [] => none
  | (k', e) :: rest => if k' = k then some e else mapLookup rest k

def mapHasKey (ms : List (String × MapEntry)) (k : String) : Bool :=
  ms.any (fun p => p.1 = k)

/-- Update the entry of `k` in place (dict update), or append a fresh one
(`defaultdict` materialization). -/
def mapUpsert (ms : List (String × MapEntry)) (k : String)
    (f : MapEntry → MapEntry) : List (String × MapEntry) :=
  match ms with
  | [] => [(k, f emptyEntry)]
  | (k', e) :: rest =>
      if k' = k then (k', f e) :: rest
      else (k', e) :: mapUpsert rest k f

/-- The member pairs an exact group appends (lines 144-149): the bucket's
occurrences grouped by framework (`by_framework`), each tagged with its
framework.  Grouping in fixed `fwList` order keeps every framework's own
member list identical to the source's. -/
def addedPairs (occurrences : List (Fw × MOcc)) :
    List (Fw × String × String) :=
  fwList.flatMap (fun fw =>
    (occurrences.filter (fun p => p.1 = fw)).map
      (fun p => (fw, p.2.uri, p.2.label)))

/-- Processing one `label_index` entry in `find_exact_matches` (lines
131-151): buckets with more than one occurrence spanning more than one
distinct framework become an exact group keyed by the first occurrence's
raw label, with type `exact` and confidence `1.0`. -/
def exactStep (ms : List (String × MapEntry))
    (entry : String × List (Fw × MOcc)) : List (String × MapEntry) :=
  match entry with
  | (_, []) => ms
  | (_, first :: rest) =>
      if 1 < (first :: rest).length ∧
          1 < (dedupFirst ((first :: rest).map (fun p => p.1.name))).length then
        mapUpsert ms first.2.label
          (fun e => ⟨"exact", 1, e.members ++ addedPairs (first :: rest)⟩)
      else ms

/-- `EntityMapper.find_exact_matches` (lines 112-154). -/
def findExactMatches (inv : Inventory) : List (String × MapEntry) :=
  (buildIndex inv).foldl exactStep []

/-! ### Exact-match pass lemmas (claim C5) -/

theorem bucketOf_indexAdd (idx : List (String × List (Fw × MOcc)))
    (k k' : String) (v : Fw × MOcc) :
    bucketOf (indexAdd idx k v) k'
      = if k' = k then bucketOf idx k ++ [v] else bucketOf idx k' := by
  induction idx with
  | nil =>
    by_cases h : k' = k
    · subst h
      simp [indexAdd, bucketOf]
    · have h2 : ¬ k = k' := fun hc => h hc.symm
      simp [indexAdd, bucketOf, h, h2]
  | cons p rest ih =>
    obtain ⟨k0, vs⟩ := p
    by_cases h0 : k0 = k
    · subst h0
      by_cases h' : k' = k0
      · subst h'
        simp [indexAdd, bucketOf]
      · have h'' : ¬ k0 = k' := fun hc => h' hc.symm
        simp [indexAdd, bucketOf, h', h'']
    · by_cases h' : k' = k0
      · subst h'
        simp [indexAdd, bucketOf, h0]
      · have h'' : ¬ k0 = k' := fun hc => h' hc.symm
        simp only [indexAdd, if_neg h0, bucketOf, if_neg h'']
        exact ih

theorem mem_bucket_indexAdd {idx : List (String × List (Fw × MOcc))}
    {k' : String} {v' : Fw × MOcc} (k : String) (v : Fw × MOcc)
    (h : v' ∈ bucketOf idx k') : v' ∈ bucketOf (indexAdd idx k v) k' := by
  rw [bucketOf_indexAdd]
  split
  · next heq => exact List.mem_append_left _ (heq ▸ h)
  · exact h

theorem keyfold_mono (p : Fw × MOcc) (k' : String) (v' : Fw × MOcc) :
    ∀ (ks : List String) (idx : List (String × List (Fw × MOcc))),
      v' ∈ bucketOf idx k' →
      v' ∈ bucketOf (ks.foldl (fun i kk => indexAdd i kk p) idx) k'
  | [], _, h => h
  | k0 :: ks, idx, h =>
      keyfold_mono p k' v' ks (indexAdd idx k0 p) (mem_bucket_indexAdd k0 p h)

theorem keyfold_adds (p : Fw × MOcc) :
    ∀ (ks : List String) (idx : List (String × List (Fw × MOcc)))
      (k : String), k ∈ ks →
      p ∈ bucketOf (ks.foldl (fun i kk => indexAdd i kk p) idx) k := by
  intro ks
  induction ks with
  | nil => intro idx k h; simp at h
  | cons k0 ks ih =>
    intro idx k h
    rcases List.mem_cons.mp h with heq | hm
    · subst heq
      rw [List.foldl_cons]
      apply keyfold_mono
      rw [bucketOf_indexAdd, if_pos rfl]
      simp
    · rw [List.foldl_cons]
      exact ih (indexAdd idx k0 p) k hm

theorem occfold_mono (fw : Fw) (k' : String) (v' : Fw × MOcc) :
    ∀ (os : List MOcc) (idx : List (String × List (Fw × MOcc))),
      v' ∈ bucketOf idx k' →
      v' ∈ bucketOf (os.foldl (fun i2 o =>
        (occKeys o).foldl (fun i3 kk => indexAdd i3 kk (fw, o)) i2) idx) k'
  | [], _, h => h
  | o :: os, idx, h =>
      occfold_mono fw k' v' os _ (keyfold_mono (fw, o) k' v' (occKeys o) idx h)

theorem occfold_adds (fw : Fw) {o : MOcc} {k : String} :
    ∀ (os : List MOcc) (idx : List (String × List (Fw × MOcc))),
      o ∈ os → k ∈ occKeys o →
      (fw, o) ∈ bucketOf (os.foldl (fun i2 o' =>
        (occKeys o').foldl (fun i3 kk => indexAdd i3 kk (fw, o')) i2) idx) k := by
  intro os
  induction os with
  | nil => intro idx h _; simp at h
  | cons o0 os ih =>
    intro idx h hk
    rcases List.mem_cons.mp h with heq | hm
    · subst heq
      exact occfold_mono fw k (fw, o) os _ (keyfold_adds (fw, o) (occKeys o) idx k hk)
    · exact ih _ hm hk

theorem fw_mem_fwList (fw : Fw) : fw ∈ fwList := by
  cases fw <;> simp [fwList]

theorem Fw.name_injective {fw1 fw2 : Fw} (h : fw1.name = fw2.name) :
    fw1 = fw2 := by
  cases fw1 <;> cases fw2 <;> first | rfl | (exfalso; simp [Fw.name] at h)

theorem mem_buildIndex {inv : Inventory} {fw : Fw} {o : MOcc} {k : String}
    (ho : o ∈ inv.occs fw) (hk : k ∈ occKeys o) :
    (fw, o) ∈ bucketOf (buildIndex inv) k := by
  rw [buildIndex]
  have main : ∀ (fws : List Fw) (idx : List (String × List (Fw × MOcc))),
      (fw ∈ fws ∨ (fw, o) ∈ bucketOf idx k) →
      (fw, o) ∈ bucketOf (fws.foldl (fun i fw' =>
        (inv.occs fw').foldl (fun i2 o' =>
          (occKeys o').foldl (fun i3 kk => indexAdd i3 kk (fw', o')) i2) i) idx) k := by
    intro fws
    induction fws with
    | nil =>
      intro idx h
      rcases h with h | h
      · simp at h
      · exact h
    | cons fw0 fws ih =>
      intro idx h
      rcases h with h | h
      · rcases List.mem_cons.mp h with heq | hm
        · subst heq
          exact ih _ (Or.inr (occfold_adds fw (inv.occs fw) idx ho hk))
        · exact ih _ (Or.inl hm)
      · exact ih _ (Or.inr (occfold_mono fw0 k (fw, o) (inv.occs fw0) idx h))
  exact main fwList [] (Or.inl (fw_mem_fwList fw))

theorem bucket_entry_mem {idx : List (String × List (Fw × MOcc))}
    {k : String} (h : bucketOf idx k ≠ []) :
    (k, bucketOf idx k) ∈ idx := by
  induction idx with
  | nil => simp [bucketOf] at h
  | cons p rest ih =>
    obtain ⟨k0, vs⟩ := p
    by_cases h0 : k0 = k
    · subst h0
      rw [bucketOf, if_pos rfl] at h ⊢
      exact List.mem_cons_self _ _
    · have hk : ¬ k0 = k := h0
      rw [bucketOf, if_neg hk] at h ⊢
      exact List.mem_cons_of_mem _ (ih h)

theorem mapLookup_mapUpsert (ms : List (String × MapEntry)) (k k' : String)
    (f : MapEntry → MapEntry) :
    mapLookup (mapUpsert ms k f) k'
      = if k' = k then some (f ((mapLookup ms k).getD emptyEntry))
        else mapLookup ms k' := by
  induction ms with
  | nil =>
    by_cases h : k' = k
    · subst h
      simp [mapUpsert, mapLookup]
    · have h2 : ¬ k = k' := fun hc => h hc.symm
      simp [mapUpsert, mapLookup, h, h2]
  | cons p rest ih =>
    obtain ⟨k0, e⟩ := p
    by_cases h0 : k0 = k
    · subst h0
      by_cases h' : k' = k0
      · subst h'
        simp [mapUpsert, mapLookup]
      · have h'' : ¬ k0 = k' := fun hc => h' hc.symm
        simp [mapUpsert, mapLookup, h', h'']
    · by_cases h' : k' = k0
      · subst h'
        simp [mapUpsert, mapLookup, h0]
      · have h'' : ¬ k0 = k' := fun hc => h' hc.symm
        simp only [mapUpsert, if_neg h0, mapLookup, if_neg h'']
        rw [ih]

/-- The property C5 tracks through the exact-match fold: some mapping
entry is an exact group with confidence 1 containing both members. -/
def exactPairGrouped (v1 v2 : Fw × String × String)
    (ms : List (String × MapEntry)) : Prop :=
  ∃ k e, mapLookup ms k = some e ∧ e.mtype = "exact" ∧ e.confidence = 1 ∧
    v1 ∈ e.members ∧ v2 ∈ e.members

theorem exactStep_preserves {v1 v2 : Fw × String × String}
    {ms : List (String × MapEntry)} (entry : String × List (Fw × MOcc))
    (h : exactPairGrouped v1 v2 ms) :
    exactPairGrouped v1 v2 (exactStep ms entry) := by
  obtain ⟨ke, occ⟩ := entry
  cases occ with
  | nil => exact h
  | cons first rest =>
    obtain ⟨k, e, hl, ht, hc, hv1, hv2⟩ := h
    simp only [exactStep]
    split
    · by_cases hk : k = first.2.label
      · refine ⟨first.2.label, ⟨"exact", 1, e.members ++ addedPairs (first :: rest)⟩,
          ?_, rfl, rfl,
          List.mem_append_left _ hv1, List.mem_append_left _ hv2⟩
        rw [mapLookup_mapUpsert, if_pos rfl, ← hk, hl]
        rfl
      · refine ⟨k, e, ?_, ht, hc, hv1, hv2⟩
        rw [mapLookup_mapUpsert, if_neg hk]
        exact hl
    · exact ⟨k, e, hl, ht, hc, hv1, hv2⟩

theorem exactStep_establishes {fw1 fw2 : Fw} {o1 o2 : MOcc}
    (entry : String × List (Fw × MOcc))
    (hlen : 1 < entry.2.length)
    (hfwc : 1 < (dedupFirst (entry.2.map (fun p => p.1.name))).length)
    (hv1 : (fw1, o1) ∈ entry.2) (hv2 : (fw2, o2) ∈ entry.2)
    (ms : List (String × MapEntry)) :
    exactPairGrouped (fw1, o1.uri, o1.label) (fw2, o2.uri, o2.label)
      (exactStep ms entry) := by
  obtain ⟨ke, occ⟩ := entry
  have hmem : ∀ {fw : Fw} {o : MOcc}, (fw, o) ∈ occ →
      (fw, o.uri, o.label) ∈ addedPairs occ := by
    intro fw o hp
    rw [addedPairs]
    apply List.mem_flatMap.mpr
    refine ⟨fw, fw_mem_fwList fw, ?_⟩
    apply List.mem_map.mpr
    refine ⟨(fw, o), List.mem_filter.mpr ⟨hp, by simp⟩, rfl⟩
  cases occ with
  | nil => simp at hlen
  | cons first rest =>
    simp only [exactStep]
    rw [if_pos ⟨hlen, hfwc⟩]
    refine ⟨first.2.label,
      ⟨"exact", 1, ((mapLookup ms first.2.label).getD emptyEntry).members
        ++ addedPairs (first :: rest)⟩, ?_, rfl, rfl,
      List.mem_append_right _ (hmem hv1), List.mem_append_right _ (hmem hv2)⟩
    rw [mapLookup_mapUpsert, if_pos rfl]

theorem foldl_exactStep_preserves {v1 v2 : Fw × String × String} :
    ∀ (entries : List (String × List (Fw × MOcc)))
      (ms : List (String × MapEntry)),
      exactPairGrouped v1 v2 ms →
      exactPairGrouped v1 v2 (entries.foldl exactStep ms)
  | [], _, h => h
  | entry :: es, ms, h =>
      foldl_exactStep_preserves es (exactStep ms entry)
        (exactStep_preserves entry h)

theorem foldl_exactStep_establishes {fw1 fw2 : Fw} {o1 o2 : MOcc}
    {entry : String × List (Fw × MOcc)}
    (hlen : 1 < entry.2.length)
    (hfwc : 1 < (dedupFirst (entry.2.map (fun p => p.1.name))).length)
    (hv1 : (fw1, o1) ∈ entry.2) (hv2 : (fw2, o2) ∈ entry.2) :
    ∀ (entries : List (String × List (Fw × MOcc)))
      (ms : List (String × MapEntry)), entry ∈ entries →
      exactPairGrouped (fw1, o1.uri, o1.label) (fw2, o2.uri, o2.label)
        (entries.foldl exactStep ms) := by
  intro entries
  induction entries with
  | nil => intro ms h; simp at h
  | cons e0 es ih =>
    intro ms h
    rcases List.mem_cons.mp h with heq | hm
    · subst heq
      exact foldl_exactStep_preserves es _
        (exactStep_establishes entry hlen hfwc hv1 hv2 ms)
    · exact ih _ hm

/-- C5: any two occupation entities from distinct frameworks sharing a
normalized label (primary or alternate) are placed by the exact-match
pass into one exact-duplicate group recorded with confidence 1.0,
independently of iteration order (the statement quantifies over every
inventory). -/
theorem C5_exact_match_groups_cross_framework (inv : Inventory)
    (fw1 fw2 : Fw) (o1 o2 : MOcc) (l : String)
    (hfw : fw1 ≠ fw2) (h1 : o1 ∈ inv.occs fw1) (h2 : o2 ∈ inv.occs fw2)
    (hl1 : l ∈ occKeys o1) (hl2 : l ∈ occKeys o2) :
    ∃ k e, mapLookup (findExactMatches inv) k = some e ∧
      e.mtype = "exact" ∧ e.confidence = 1 ∧
      (fw1, o1.uri, o1.label) ∈ e.members ∧
      (fw2, o2.uri, o2.label) ∈ e.members := by
  have hb1 : (fw1, o1) ∈ bucketOf (buildIndex inv) l := mem_buildIndex h1 hl1
  have hb2 : (fw2, o2) ∈ bucketOf (buildIndex inv) l := mem_buildIndex h2 hl2
  have hne : ((fw1, o1) : Fw × MOcc) ≠ (fw2, o2) := by
    intro hc
    exact hfw (congrArg Prod.fst hc)
  have hlen : 1 < (bucketOf (buildIndex inv) l).length :=
    one_lt_length_of_two_mem hb1 hb2 hne
  have hfwc :
      1 < (dedupFirst ((bucketOf (buildIndex inv) l).map
        (fun p => p.1.name))).length := by
    have hn1 : fw1.name ∈ (bucketOf (buildIndex inv) l).map (fun p => p.1.name) :=
      List.mem_map.mpr ⟨(fw1, o1), hb1, rfl⟩
    have hn2 : fw2.name ∈ (bucketOf (buildIndex inv) l).map (fun p => p.1.name) :=
      List.mem_map.mpr ⟨(fw2, o2), hb2, rfl⟩
    exact one_lt_length_of_two_mem (mem_dedupFirst.mpr hn1)
      (mem_dedupFirst.mpr hn2) (fun hc => hfw (Fw.name_injective hc))
  have hbne : bucketOf (buildIndex inv) l ≠ [] := by
    intro hc
    rw [hc] at hb1
    simp at hb1
  exact foldl_exactStep_establishes hlen hfwc hb1 hb2 (buildIndex inv) []
    (bucket_entry_mem hbne)

/-- Witness for C5: the spec's Scenario 1 — ESCO `"Software Developer"`
and O*NET `"Software developer "` (trailing space, different case) land in
one exact group with confidence 1.0. -/
theorem C5_witness :
    ∃ k e, mapLookup (findExactMatches
        ⟨[], [⟨"http://esco/sd", "Software Developer", []⟩],
          [⟨"http://onet/sd", "Software developer ", []⟩], []⟩) k = some e ∧
      e.mtype = "exact" ∧ e.confidence = 1 ∧
      (Fw.esco, "http://esco/sd", "Software Developer") ∈ e.members ∧
      (Fw.onet, "http://onet/sd", "Software developer ") ∈ e.members :=
  C5_exact_match_groups_cross_framework
    ⟨[], [⟨"http://esco/sd", "Software Developer", []⟩],
      [⟨"http://onet/sd", "Software developer ", []⟩], []⟩
    .esco .onet
    ⟨"http://esco/sd", "Software Developer", []⟩
    ⟨"http://onet/sd", "Software developer ", []⟩
    (normalizeMap "Software Developer")
    (by decide) (by decide) (by decide) (by decide) (by decide)

/-! ### `difflib.SequenceMatcher` (used by `calculate_similarity`)

`SequenceMatcher(None, a, b).ratio()` for junk-free inputs: occupation
labels are far shorter than the 200-character autojunk activation bound,
so `b2j` is the plain position index. -/

/-- Ascending positions of `c` in `b` (`b2j[c]`). -/
def indicesOf (b : List Char) (c : Char) : List Nat :=
  (List.range b.length).filter (fun j => b.get? j = some c)

/-- `j2len.get(j, 0)`. -/
def lookupJ (l : List (Nat × Nat)) (j : Nat) : Nat :=
  match l.find? (fun p => p.1 = j) with
  | some p => p.2
  | none => 0

/-- `a[i] == b[j]` on optional characters (always in range at use sites). -/
def chEq (x y : Option Char) : Bool :=
  match x, y with
  | some a, some b => a = b
  | _, _ => false

/-- One row of `find_longest_match`'s dynamic program (the loop over
`b2j.get(a[i])`): `prev` is the previous row's `j2len`; the fold builds
the new row and updates the best match (`if k > bestsize`).  Python's
`continue` below `blo` and `break` at `bhi` equal filtering the ascending
index list; `j2len.get(j-1, 0)` is 0 at `j = 0` (python looks up `-1`). -/
def flmRow (prev : List (Nat × Nat)) (i : Nat)
    (best : Nat × Nat × Nat) (js : List Nat) :
    (Nat × Nat × Nat) × List (Nat × Nat) :=
  js.foldl (fun acc j =>
    let k := (if j = 0 then 0 else lookupJ prev (j - 1)) + 1
    let b := acc.1
    ((if b.2.2 < k then (i + 1 - k, j + 1 - k, k) else b), acc.2 ++ [(j, k)]))
    (best, [])

/-- The backward extension loop of `find_longest_match` (the junk
variants never fire with `isjunk=None`). -/
def extendBack (a b : List Char) (alo blo : Nat) :
    Nat → Nat → Nat → Nat × Nat × Nat
  | 0, bestj, bestsize => (0, bestj, bestsize)
  | besti+1, bestj, bestsize =>
      if alo < besti + 1 ∧ blo < bestj ∧
          chEq (a.get? besti) (b.get? (bestj - 1)) then
        extendBack a b alo blo besti (bestj - 1) (bestsize + 1)
      else (besti + 1, bestj, bestsize)

/-- The forward extension loop; `gap` starts at `ahi - (besti + bestsize)`
and tracks the remaining room exactly, so the loop guard and the `gap`
pattern agree at every step. -/
def extendFwd (a b : List Char) (ahi bhi besti bestj : Nat) :
    Nat → Nat → Nat
  | 0, bestsize => bestsize
  | gap+1, bestsize =>
      if besti + bestsize < ahi ∧ bestj + bestsize < bhi ∧
          chEq (a.get? (besti + bestsize)) (b.get? (bestj + bestsize)) then
        extendFwd a b ahi bhi besti bestj gap (bestsize + 1)
      else bestsize

/-- `SequenceMatcher.find_longest_match(alo, ahi, blo, bhi)` for junk-free
strings: the dense dynamic program over rows `alo ≤ i < ahi`, then the
backward and forward non-junk extension loops. -/
def flm (a b : List Char) (alo ahi blo bhi : Nat) : Nat × Nat × Nat :=
  let res := (List.range' alo (ahi - alo)).foldl
    (fun (st : (Nat × Nat × Nat) × List (Nat × Nat)) i =>
      let js := match a.get? i with
        | some c => (indicesOf b c).filter (fun j => blo ≤ j && j < bhi)
        | none => []
      flmRow st.2 i st.1 js) ((alo, blo, 0), [])
  let b0 := extendBack a b alo blo res.1.1 res.1.2.1 res.1.2.2
  let size := extendFwd a b ahi bhi b0.1 b0.2.1 (ahi - (b0.1 + b0.2.2)) b0.2.2
  (b0.1, b0.2.1, size)

/-- Sum of the matching-block sizes of `get_matching_blocks`, by the same
region recursion: a region with a non-empty longest match contributes its
size and splits into the sub-regions left and right of the match.  The
fuel bounds the number of processed regions: popping a region either
consumes it (`k = 0`) or splits it into two regions whose combined
`a`-width shrinks by `k ≥ 1`, so the potential `2*(ahi-alo)+1` summed
over the queue strictly decreases and `2*a.length + 1` pops always
suffice.  Traversal order differs from the source's LIFO queue, but each
region is decomposed independently, so the multiset of emitted blocks —
hence the sum — is the same. -/
def mbSumAux (a b : List Char) : Nat → List (Nat × Nat × Nat × Nat) → Nat
  | 0, _ => 0
  | _+1, [] => 0
  | fuel+1, (alo, ahi, blo, bhi) :: rest =>
      let r := flm a b alo ahi blo bhi
      let i := r.1
      let j := r.2.1
      let k := r.2.2
      if 0 < k then
        k + mbSumAux a b fuel
          ((if alo < i ∧ blo < j then [(alo, i, blo, j)] else []) ++
           (if i + k < ahi ∧ j + k < bhi then [(i + k, ahi, j + k, bhi)] else []) ++
           rest)
      else mbSumAux a b fuel rest

/-- Total matched characters `M` of `SequenceMatcher(None, a, b)`. -/
def matchSum (a b : List Char) : Nat :=
  mbSumAux a b (2 * a.length + 1) [(0, a.length, 0, b.length)]

/-- `SequenceMatcher.ratio()`: `2*M / T`, and 1.0 when both strings are
empty (difflib's `_calculate_ratio`).  The quotient is built with `mkRat`
(the same rational as `2*M / T`, see `ratioQ_eq_div`) so that concrete
ratios evaluate inside the kernel. -/
def ratioQ (a b : List Char) : ℚ :=
  if a.length + b.length = 0 then 1
  else mkRat (2 * matchSum a b) (a.length + b.length)

theorem ratioQ_eq_div (a b : List Char) (h : a.length + b.length ≠ 0) :
    ratioQ a b = (2 * matchSum a b : ℚ) / (a.length + b.length) := by
  rw [ratioQ, if_neg h, Rat.mkRat_eq_divInt, Rat.divInt_eq_div]
  push_cast
  ring

/-- `EntityMapper.calculate_similarity` (lines 100-110): 1.0 on equal
normalized labels, else the `SequenceMatcher` ratio of the two normalized
labels. -/
def calculateSimilarity (l1 l2 : String) : ℚ :=
  if normalizeMapL l1.data = normalizeMapL l2.data then 1
  else ratioQ (normalizeMapL l1.data) (normalizeMapL l2.data)

/-! ### Fuzzy-match pass (`find_fuzzy_matches`) -/

/-- The framework pairs of the fuzzy pass (lines 163-166): `(i, j)` with
`i < j` over `['ca', 'esco', 'onet', 'sg']`. -/
def fwPairs : List (Fw × Fw) :=
  [(.ca, .esco), (.ca, .onet), (.ca, .sg),
   (.esco, .onet), (.esco, .sg), (.onet, .sg)]

/-- The cross-framework occupation pairs the fuzzy pass scans, in loop
order.  The pass iterates over ALL occupations — not only those missed by
the exact pass. -/
def fuzzyCandidates (inv : Inventory) : List (Fw × Fw × MOcc × MOcc) :=
  fwPairs.flatMap (fun fp =>
    (inv.occs fp.1).flatMap (fun oc1 =>
      (inv.occs fp.2).map (fun oc2 => (fp.1, fp.2, oc1, oc2))))

/-- The `label_key` of a fuzzy group. -/
def fuzzyKey (l1 l2 : String) : String := l1 ++ " ~ " ++ l2

/-- One iteration of the fuzzy pass's inner loop (lines 169-186): a pair
scoring in `[threshold, 1)` is recorded under its `"l1 ~ l2"` key unless
that key is already present, incrementing the fuzzy-match counter. -/
def fuzzyStep (t : ℚ) (st : List (String × MapEntry) × Nat)
    (c : Fw × Fw × MOcc × MOcc) : List (String × MapEntry) × Nat :=
  let sim := calculateSimilarity c.2.2.1.label c.2.2.2.label
  if t ≤ sim ∧ sim < 1 then
    let key := fuzzyKey c.2.2.1.label c.2.2.2.label
    if mapHasKey st.1 key then st
    else (st.1 ++ [(key, ⟨"fuzzy", sim,
      [(c.1, c.2.2.1.uri, c.2.2.1.label),
       (c.2.1, c.2.2.2.uri, c.2.2.2.label)]⟩)], st.2 + 1)
  else st

/-- `EntityMapper.find_fuzzy_matches` (lines 156-189) run on the mappings
`ms0` left by the exact pass, returning the updated mappings and the
number of fuzzy matches recorded. -/
def findFuzzyMatches (inv : Inventory) (t : ℚ)
    (ms0 : List (String × MapEntry)) : List (String × MapEntry) × Nat :=
  (fuzzyCandidates inv).foldl (fuzzyStep t) (ms0, 0)

/-! ### Fuzzy-pass lemmas (claims C6 and C7) -/

/-- The keys present in a mappings dict, as a finite set. -/
def keySet (ms : List (String × MapEntry)) : Finset String :=
  (ms.map Prod.fst).toFinset

theorem mapHasKey_iff {ms : List (String × MapEntry)} {k : String} :
    mapHasKey ms k = true ↔ k ∈ keySet ms := by
  simp only [mapHasKey, List.any_eq_true, decide_eq_true_eq, keySet,
    List.mem_toFinset, List.mem_map]

theorem keySet_append (ms : List (String × MapEntry)) (k : String)
    (e : MapEntry) : keySet (ms ++ [(k, e)]) = insert k (keySet ms) := by
  ext x
  simp [keySet, or_comm]

/-- The similarity score the fuzzy pass computes for a candidate. -/
def candSim (c : Fw × Fw × MOcc × MOcc) : ℚ :=
  calculateSimilarity c.2.2.1.label c.2.2.2.label

/-- The `label_key` of a candidate. -/
def candKey (c : Fw × Fw × MOcc × MOcc) : String :=
  fuzzyKey c.2.2.1.label c.2.2.2.label

/-- The mapping entry recorded for a candidate. -/
def candEntry (c : Fw × Fw × MOcc × MOcc) : MapEntry :=
  ⟨"fuzzy", candSim c, [(c.1, c.2.2.1.uri, c.2.2.1.label),
    (c.2.1, c.2.2.2.uri, c.2.2.2.label)]⟩

theorem fuzzyStep_gate_fail {t : ℚ} {c : Fw × Fw × MOcc × MOcc}
    (ms : List (String × MapEntry)) (n : Nat)
    (h : ¬(t ≤ candSim c ∧ candSim c < 1)) :
    fuzzyStep t (ms, n) c = (ms, n) := by
  have h' : ¬(t ≤ calculateSimilarity c.2.2.1.label c.2.2.2.label ∧
      calculateSimilarity c.2.2.1.label c.2.2.2.label < 1) := h
  simp only [fuzzyStep]
  rw [if_neg h']

theorem fuzzyStep_key_present {t : ℚ} {c : Fw × Fw × MOcc × MOcc}
    (ms : List (String × MapEntry)) (n : Nat)
    (h : t ≤ candSim c ∧ candSim c < 1)
    (hk : mapHasKey ms (candKey c) = true) :
    fuzzyStep t (ms, n) c = (ms, n) := by
  have h' : t ≤ calculateSimilarity c.2.2.1.label c.2.2.2.label ∧
      calculateSimilarity c.2.2.1.label c.2.2.2.label < 1 := h
  have hk' : mapHasKey ms (fuzzyKey c.2.2.1.label c.2.2.2.label) = true := hk
  simp only [fuzzyStep]
  rw [if_pos h', if_pos hk']

theorem fuzzyStep_records {t : ℚ} {c : Fw × Fw × MOcc × MOcc}
    (ms : List (String × MapEntry)) (n : Nat)
    (h : t ≤ candSim c ∧ candSim c < 1)
    (hk : ¬ mapHasKey ms (candKey c) = true) :
    fuzzyStep t (ms, n) c = (ms ++ [(candKey c, candEntry c)], n + 1) := by
  have h' : t ≤ calculateSimilarity c.2.2.1.label c.2.2.2.label ∧
      calculateSimilarity c.2.2.1.label c.2.2.2.label < 1 := h
  have hk' : ¬ mapHasKey ms (fuzzyKey c.2.2.1.label c.2.2.2.label) = true := hk
  simp only [fuzzyStep]
  rw [if_pos h', if_neg hk']
  rfl

/-- The number of fuzzy matches recorded from a candidate list, starting
from the mappings `ms`. -/
def fuzzyCount (t : ℚ) (ms : List (String × MapEntry))
    (cands : List (Fw × Fw × MOcc × MOcc)) : Nat :=
  (cands.foldl (fuzzyStep t) (ms, 0)).2

theorem fuzzyStep_shift (t : ℚ) (ms : List (String × MapEntry)) (n : Nat)
    (c : Fw × Fw × MOcc × MOcc) :
    fuzzyStep t (ms, n) c
      = ((fuzzyStep t (ms, 0) c).1, n + (fuzzyStep t (ms, 0) c).2) := by
  by_cases h : t ≤ candSim c ∧ candSim c < 1
  · by_cases hk : mapHasKey ms (candKey c) = true
    · rw [fuzzyStep_key_present ms n h hk, fuzzyStep_key_present ms 0 h hk]
      simp
    · rw [fuzzyStep_records ms n h hk, fuzzyStep_records ms 0 h hk]
  · rw [fuzzyStep_gate_fail ms n h, fuzzyStep_gate_fail ms 0 h]
    simp

theorem foldl_fuzzyStep_shift (t : ℚ) :
    ∀ (cands : List (Fw × Fw × MOcc × MOcc))
      (ms : List (String × MapEntry)) (n : Nat),
      cands.foldl (fuzzyStep t) (ms, n)
        = ((cands.foldl (fuzzyStep t) (ms, 0)).1, n + fuzzyCount t ms cands) := by
  intro cands
  induction cands with
  | nil => intro ms n; simp [fuzzyCount]
  | cons c cs ih =>
    intro ms n
    rw [List.foldl_cons, List.foldl_cons, fuzzyStep_shift]
    rcases hstep : fuzzyStep t (ms, 0) c with ⟨ms', d⟩
    have hcnt : fuzzyCount t ms (c :: cs) = d + fuzzyCount t ms' cs := by
      rw [fuzzyCount, List.foldl_cons, hstep, ih ms' d]
    rw [hcnt, ih ms' d]
    show List.foldl (fuzzyStep t) (ms', n + d) cs = _
    rw [ih ms' (n + d)]
    simp [Nat.add_assoc]

theorem fuzzyCount_cons (t : ℚ) (ms : List (String × MapEntry))
    (c : Fw × Fw × MOcc × MOcc) (cs : List (Fw × Fw × MOcc × MOcc)) :
    fuzzyCount t ms (c :: cs)
      = (fuzzyStep t (ms, 0) c).2
          + fuzzyCount t (fuzzyStep t (ms, 0) c).1 cs := by
  rcases hstep : fuzzyStep t (ms, 0) c with ⟨ms', d⟩
  rw [fuzzyCount, List.foldl_cons, hstep, foldl_fuzzyStep_shift t cs ms' d]

set_option maxHeartbeats 1600000 in
theorem fuzzy_mono_aux (t1 t2 : ℚ) (ht : t1 ≤ t2) :
    ∀ (cands : List (Fw × Fw × MOcc × MOcc))
      (ms1 ms2 : List (String × MapEntry)),
      keySet ms2 ⊆ keySet ms1 →
      fuzzyCount t2 ms2 cands
        ≤ fuzzyCount t1 ms1 cands + (keySet ms1 \ keySet ms2).card := by
  intro cands
  induction cands with
  | nil => intro ms1 ms2 _; simp [fuzzyCount]
  | cons c cs ih =>
    intro ms1 ms2 hsub
    rw [fuzzyCount_cons, fuzzyCount_cons]
    by_cases hp2 : t2 ≤ candSim c ∧ candSim c < 1
    · have hp1 : t1 ≤ candSim c ∧ candSim c < 1 :=
        ⟨le_trans ht hp2.1, hp2.2⟩
      by_cases hk2 : mapHasKey ms2 (candKey c) = true
      · have hk1 : mapHasKey ms1 (candKey c) = true :=
          mapHasKey_iff.mpr (hsub (mapHasKey_iff.mp hk2))
        rw [fuzzyStep_key_present ms2 0 hp2 hk2,
          fuzzyStep_key_present ms1 0 hp1 hk1]
        simpa using ih ms1 ms2 hsub
      · by_cases hk1 : mapHasKey ms1 (candKey c) = true
        · -- the key is new at t2 but already present at t1
          rw [fuzzyStep_records ms2 0 hp2 hk2,
            fuzzyStep_key_present ms1 0 hp1 hk1]
          have hkm1 : candKey c ∈ keySet ms1 := mapHasKey_iff.mp hk1
          have hkm2 : candKey c ∉ keySet ms2 := fun hc =>
            hk2 (mapHasKey_iff.mpr hc)
          have hsub' : keySet (ms2 ++ [(candKey c, candEntry c)])
              ⊆ keySet ms1 := by
            rw [keySet_append]
            exact Finset.insert_subset hkm1 hsub
          have hdiff : keySet ms1 \ keySet (ms2 ++ [(candKey c, candEntry c)])
              = (keySet ms1 \ keySet ms2).erase (candKey c) := by
            rw [keySet_append]
            ext x
            simp only [Finset.mem_sdiff, Finset.mem_insert, Finset.mem_erase]
            tauto
          have hmem : candKey c ∈ keySet ms1 \ keySet ms2 :=
            Finset.mem_sdiff.mpr ⟨hkm1, hkm2⟩
          have hpos : 0 < (keySet ms1 \ keySet ms2).card :=
            Finset.card_pos.mpr ⟨_, hmem⟩
          have := ih ms1 (ms2 ++ [(candKey c, candEntry c)]) hsub'
          rw [hdiff, Finset.card_erase_of_mem hmem] at this
          simp only [] at this ⊢
          simp at this ⊢
          omega
        · -- both thresholds record the key
          rw [fuzzyStep_records ms2 0 hp2 hk2,
            fuzzyStep_records ms1 0 hp1 hk1]
          have hkm1 : candKey c ∉ keySet ms1 := fun hc =>
            hk1 (mapHasKey_iff.mpr hc)
          have hkm2 : candKey c ∉ keySet ms2 := fun hc =>
            hk2 (mapHasKey_iff.mpr hc)
          have hsub' : keySet (ms2 ++ [(candKey c, candEntry c)])
              ⊆ keySet (ms1 ++ [(candKey c, candEntry c)]) := by
            rw [keySet_append, keySet_append]
            exact Finset.insert_subset_insert _ hsub
          have hdiff : keySet (ms1 ++ [(candKey c, candEntry c)])
                \ keySet (ms2 ++ [(candKey c, candEntry c)])
              = keySet ms1 \ keySet ms2 := by
            rw [keySet_append, keySet_append]
            ext x
            simp only [Finset.mem_sdiff, Finset.mem_insert]
            constructor
            · rintro ⟨h1 | h1, h2⟩
              · exact absurd (Or.inl h1) h2
              · exact ⟨h1, fun hc => h2 (Or.inr hc)⟩
            · rintro ⟨h1, h2⟩
              refine ⟨Or.inr h1, ?_⟩
              rintro (hc | hc)
              · exact hkm1 (hc ▸ h1)
              · exact h2 hc
          have := ih (ms1 ++ [(candKey c, candEntry c)])
            (ms2 ++ [(candKey c, candEntry c)]) hsub'
          rw [hdiff] at this
          simp at this ⊢
          omega
    · -- the candidate fails the similarity gate at t2
      rw [fuzzyStep_gate_fail ms2 0 hp2]
      by_cases hp1 : t1 ≤ candSim c ∧ candSim c < 1
      · by_cases hk1 : mapHasKey ms1 (candKey c) = true
        · rw [fuzzyStep_key_present ms1 0 hp1 hk1]
          simpa using ih ms1 ms2 hsub
        · -- t1 records a key that t2 never sees
          rw [fuzzyStep_records ms1 0 hp1 hk1]
          have hkm1 : candKey c ∉ keySet ms1 := fun hc =>
            hk1 (mapHasKey_iff.mpr hc)
          have hkm2 : candKey c ∉ keySet ms2 := fun hc => hkm1 (hsub hc)
          have hsub' : keySet ms2 ⊆ keySet (ms1 ++ [(candKey c, candEntry c)]) := by
            rw [keySet_append]
            exact subset_trans hsub (Finset.subset_insert _ _)
          have hdiff : keySet (ms1 ++ [(candKey c, candEntry c)]) \ keySet ms2
              = insert (candKey c) (keySet ms1 \ keySet ms2) := by
            rw [keySet_append]
            ext x
            simp only [Finset.mem_sdiff, Finset.mem_insert]
            constructor
            · rintro ⟨h1 | h1, h2⟩
              · exact Or.inl h1
              · exact Or.inr ⟨h1, h2⟩
            · rintro (h1 | ⟨h1, h2⟩)
              · exact ⟨Or.inl h1, h1 ▸ hkm2⟩
              · exact ⟨Or.inr h1, h2⟩
          have hnm : candKey c ∉ keySet ms1 \ keySet ms2 := fun hc =>
            hkm1 (Finset.mem_sdiff.mp hc).1
          have := ih (ms1 ++ [(candKey c, candEntry c)]) ms2 hsub'
          rw [hdiff, Finset.card_insert_of_not_mem hnm] at this
          simp at this ⊢
          omega
      · rw [fuzzyStep_gate_fail ms1 0 hp1]
        simpa using ih ms1 ms2 hsub

/-- C7: for a fixed occupation inventory, raising the fuzzy-match
similarity threshold never increases the number of fuzzy matches the
fuzzy pass records (run, as in the source, on the mappings left by the
exact pass). -/
theorem C7_fuzzy_threshold_monotone (inv : Inventory) (t1 t2 : ℚ)
    (ht : t1 ≤ t2) :
    (findFuzzyMatches inv t2 (findExactMatches inv)).2
      ≤ (findFuzzyMatches inv t1 (findExactMatches inv)).2 := by
  have h := fuzzy_mono_aux t1 t2 ht (fuzzyCandidates inv)
    (findExactMatches inv) (findExactMatches inv) (subset_refl _)
  simpa [findFuzzyMatches, fuzzyCount, Finset.sdiff_self] using h

/-- A two-framework inventory whose occupations are exact-grouped via a
shared alternate label while their primary labels sit at similarity
`9/10`: ESCO `"abcdefghij"` and O*NET `"abcdefghix"`, both with alternate
label `"shared alt"`. -/
def fuzzyDemoInv : Inventory :=
  ⟨[], [⟨"http://esco/1", "abcdefghij", ["shared alt"]⟩],
    [⟨"http://onet/2", "abcdefghix", ["shared alt"]⟩], []⟩

/-- Witness for C7 at thresholds `0.85 ≤ 0.95` on a concrete inventory. -/
theorem C7_witness :
    mkRat 17 20 ≤ mkRat 19 20 ∧
    (findFuzzyMatches fuzzyDemoInv (mkRat 19 20)
        (findExactMatches fuzzyDemoInv)).2
      ≤ (findFuzzyMatches fuzzyDemoInv (mkRat 17 20)
        (findExactMatches fuzzyDemoInv)).2 :=
  ⟨by decide, C7_fuzzy_threshold_monotone fuzzyDemoInv (mkRat 17 20)
    (mkRat 19 20) (by decide)⟩

/-- C6 (counterexample): the fuzzy pass DOES re-record a pair already
grouped by the exact pass.  In `fuzzyDemoInv` the exact pass groups the
ESCO/O*NET pair via the shared normalized alternate label `"shared alt"`
(entry keyed `"abcdefghij"`, confidence 1.0); the fuzzy pass at the
default threshold 0.85 nevertheless scans the same pair (it iterates over
ALL occupations, not only those missed by the exact pass), scores their
primary labels at `9/10 ∈ [0.85, 1)` and records them again as a fuzzy
group — refuting the claim that a pair already grouped by the exact pass
is never recorded by the fuzzy pass. -/
theorem C6_counterexample :
    mapLookup (findExactMatches fuzzyDemoInv) "abcdefghij"
        = some ⟨"exact", 1, [(.esco, "http://esco/1", "abcdefghij"),
                             (.onet, "http://onet/2", "abcdefghix")]⟩ ∧
    mapLookup (findFuzzyMatches fuzzyDemoInv (mkRat 17 20)
        (findExactMatches fuzzyDemoInv)).1 (fuzzyKey "abcdefghij" "abcdefghix")
        = some ⟨"fuzzy", mkRat 9 10, [(.esco, "http://esco/1", "abcdefghij"),
                                      (.onet, "http://onet/2", "abcdefghix")]⟩ ∧
    (findFuzzyMatches fuzzyDemoInv (mkRat 17 20)
        (findExactMatches fuzzyDemoInv)).2 = 1 := by
  refine ⟨?_, ?_, ?_⟩ <;> decide

theorem calculateSimilarity_eq_one_of_norm_eq {l1 l2 : String}
    (h : normalizeMap l1 = normalizeMap l2) :
    calculateSimilarity l1 l2 = 1 := by
  have h' : normalizeMapL l1.data = normalizeMapL l2.data :=
    congrArg String.data h
  rw [calculateSimilarity, if_pos h']

/-- The property every entry the fuzzy pass appends satisfies: it is a
fuzzy group whose confidence is the similarity of its two member labels,
strictly below 1, so the two primary labels do not normalize
identically. -/
def fuzzyRecordedProp (e : MapEntry) : Prop :=
  e.mtype = "fuzzy" ∧ e.confidence < 1 ∧
    ∃ l1 l2, e.confidence = calculateSimilarity l1 l2 ∧
      normalizeMap l1 ≠ normalizeMap l2 ∧
      ∃ fw1 u1 fw2 u2, e.members = [(fw1, u1, l1), (fw2, u2, l2)]

theorem fuzzy_fold_recorded (t : ℚ) (ms0 : List (String × MapEntry)) :
    ∀ (cands : List (Fw × Fw × MOcc × MOcc))
      (st : List (String × MapEntry) × Nat),
      (∀ p ∈ st.1, p ∈ ms0 ∨ fuzzyRecordedProp p.2) →
      ∀ p ∈ (cands.foldl (fuzzyStep t) st).1,
        p ∈ ms0 ∨ fuzzyRecordedProp p.2 := by
  intro cands
  induction cands with
  | nil => intro st h p hp; exact h p hp
  | cons c cs ih =>
    intro st h
    rw [List.foldl_cons]
    apply ih
    intro p hp
    rcases hst : st with ⟨ms, n⟩
    rw [hst] at hp
    by_cases hgate : t ≤ candSim c ∧ candSim c < 1
    · by_cases hk : mapHasKey ms (candKey c) = true
      · rw [fuzzyStep_key_present ms n hgate hk] at hp
        exact h p (hst ▸ hp)
      · rw [fuzzyStep_records ms n hgate hk] at hp
        rcases List.mem_append.mp hp with hold | hnew
        · exact h p (hst ▸ hold)
        · right
          have hpe : p = (candKey c, candEntry c) := by
            simpa using hnew
          rw [hpe]
          refine ⟨rfl, hgate.2, c.2.2.1.label, c.2.2.2.label, rfl, ?_,
            c.1, c.2.2.1.uri, c.2.1, c.2.2.2.uri, rfl⟩
          intro hn
          have h1 := calculateSimilarity_eq_one_of_norm_eq hn
          have := hgate.2
          rw [candSim, h1] at this
          exact absurd this (lt_irrefl 1)
    · rw [fuzzyStep_gate_fail ms n hgate] at hp
      exact h p (hst ▸ hp)

/-- C6 (amended): exact-match precedence holds only at the primary-label
level.  Every entry the fuzzy pass records has confidence strictly below
1 equal to the similarity of its two member labels, whose normalized
primary labels therefore differ — so a pair whose primary labels
normalize identically (the exact pass's primary grouping criterion) is
never recorded by the fuzzy pass.  A pair exact-grouped only via a shared
alternate label can be re-recorded (see the counterexample), because the
fuzzy pass iterates over all entities, not only those missed by the exact
pass. -/
theorem C6_fuzzy_records_only_below_one (inv : Inventory) (t : ℚ)
    (ms0 : List (String × MapEntry)) (k : String) (e : MapEntry)
    (hmem : (k, e) ∈ (findFuzzyMatches inv t ms0).1)
    (hnew : (k, e) ∉ ms0) :
    e.mtype = "fuzzy" ∧ e.confidence < 1 ∧
      ∃ l1 l2, e.confidence = calculateSimilarity l1 l2 ∧
        normalizeMap l1 ≠ normalizeMap l2 ∧
        ∃ fw1 u1 fw2 u2, e.members = [(fw1, u1, l1), (fw2, u2, l2)] := by
  have h := fuzzy_fold_recorded t ms0 (fuzzyCandidates inv) (ms0, 0)
    (fun p hp => Or.inl hp) (k, e) hmem
  rcases h with h | h
  · exact absurd h hnew
  · exact h

/-- Witness for the amended C6 theorem: the fuzzy group recorded in
`fuzzyDemoInv` has confidence `9/10 < 1` and distinct normalized primary
labels. -/
theorem C6_witness :
    (⟨"fuzzy", mkRat 9 10, [(.esco, "http://esco/1", "abcdefghij"),
        (.onet, "http://onet/2", "abcdefghix")]⟩ : MapEntry).mtype = "fuzzy" ∧
    (⟨"fuzzy", mkRat 9 10, [(.esco, "http://esco/1", "abcdefghij"),
        (.onet, "http://onet/2", "abcdefghix")]⟩ : MapEntry).confidence < 1 ∧
    ∃ l1 l2, (⟨"fuzzy", mkRat 9 10, [(.esco, "http://esco/1", "abcdefghij"),
        (.onet, "http://onet/2", "abcdefghix")]⟩ : MapEntry).confidence
          = calculateSimilarity l1 l2 ∧
      normalizeMap l1 ≠ normalizeMap l2 ∧
      ∃ fw1 u1 fw2 u2, (⟨"fuzzy", mkRat 9 10,
        [(.esco, "http://esco/1", "abcdefghij"),
         (.onet, "http://onet/2", "abcdefghix")]⟩ : MapEntry).members
          = [(fw1, u1, l1), (fw2, u2, l2)] :=
  C6_fuzzy_records_only_below_one fuzzyDemoInv (mkRat 17 20)
    (findExactMatches fuzzyDemoInv)
    (fuzzyKey "abcdefghij" "abcdefghix")
    ⟨"fuzzy", mkRat 9 10, [(.esco, "http://esco/1", "abcdefghij"),
      (.onet, "http://onet/2", "abcdefghix")]⟩
    (by decide) (by decide)

/-! ## Query Service (`kg_service.py`, `sparql_queries.py`,
`backend/services/sfia_km_service.py`)

The service's network layer is modelled by a function from query strings
to either an exception (`Except.error`) or a parsed SPARQL JSON response;
the query-template builders of `KnowledgeGraphQueries` are opaque
string-valued functions (their SPARQL text is irrelevant to the claims).
Result rows are ordered association lists with Python `dict.get`
semantics. -/

/-- Minimal JSON-ish value for raw SPARQL responses. -/
inductive J where
  | s (v : String)
  | a (xs : List J)
  | o (fields : List (String × J))

/-- First-match field lookup in a JSON object. -/
def jLookup (fields : List (String × J)) (k : String) : Option J :=
  match fields with
  | [] => none
  | (k', v) :: rest => if k' = k then some v else jLookup rest k

/-- `dict.get(k, d)` on a result row. -/
def recGetD (r : List (String × String)) (k d : String) : String :=
  match r with
  | [] => d
  | (k', v) :: rest => if k' = k then v else recGetD rest k d

/-- `dict.get(k, '')` on a result row. -/
def recGet (r : List (String × String)) (k : String) : String :=
  recGetD r k ""

/-- Python `str.lower()` on a `String`. -/
def pyLowerStr (s : String) : String := ⟨pyLower s.data⟩

/-- One SPARQL JSON binding turned into a row
(`row[key] = value.get('value', '')`, `format_sparql_results` lines
403-407).  Binding values are JSON objects in every SPARQL response; a
non-object value is mapped to the default `''`. -/
def bindingRow (b : J) : List (String × String) :=
  match b with
  | .o fields => fields.map (fun kv => (kv.1,
      match kv.2 with
      | .o vf => match jLookup vf "value" with
        | some (.s s) => s
        | _ => ""
      | _ => ""))
  | _ => []

/-- `format_sparql_results` (`sparql_queries.py` lines 389-409): an
empty/None response, or one without a `results.bindings` list, yields
`[]`; otherwise each binding becomes a row. -/
def formatSparqlResults (results : J) : List (List (String × String)) :=
  match results with
  | .o [] => []
  | .o fields =>
      match jLookup fields "results" with
      | some (.o rfields) =>
          match jLookup rfields "bindings" with
          | some (.a bindings) => bindings.map bindingRow
          | _ => []
      | _ => []
  | _ => []

/-- The bindings list of a response, when the response has the SPARQL
JSON shape. -/
def bindingsOf (j : J) : Option (List J) :=
  match j with
  | .o fields =>
      match jLookup fields "results" with
      | some (.o rfields) =>
          match jLookup rfields "bindings" with
          | some (.a bindings) => some bindings
          | _ => none
      | _ => none
  | _ => none

/-- The query templates of `KnowledgeGraphQueries`, as opaque
string-valued builders (their SPARQL text does not matter to the
claims). -/
structure KGQueries where
  getOccupationByLabel : String → String
  getSkillsForOccupation : String → String
  getKnowledgeForOccupation : String → String
  getAbilitiesForOccupation : String → String
  getTechnologiesForOccupation : String → String
  getOccupationSalaryData : String → String
  findSimilarOccupations : String → Nat → String
  searchSkillsByKeyword : String → String
  getOccupationsForSkill : String → String

/-- `KnowledgeGraphService`: the query templates plus the store call
(query string to parsed JSON, or an exception). -/
structure KGService where
  queries : KGQueries
  raw : String → Except Unit J

/-- `KnowledgeGraphService._execute_query` (lines 35-59): format the
response; any exception yields `[]`. -/
def executeQuery (svc : KGService) (q : String) :
    List (List (String × String)) :=
  match svc.raw q with
  | .error _ => []
  | .ok j => formatSparqlResults j

/-- The `seen`-set deduplication loop of `search_occupations` (lines
74-82): keep the first record per lowercase label. -/
def dedupByLabel (seen : List String) :
    List (List (String × String)) → List (List (String × String))
  | [] => []
  | r :: rest =>
      let label := pyLowerStr (recGet r "label")
      if label ∈ seen then dedupByLabel seen rest
      else r :: dedupByLabel (label :: seen) rest

/-- `KnowledgeGraphService.search_occupations` (lines 61-83). -/
def searchOccupations (svc : KGService) (keyword : String) :
    List (List (String × String)) :=
  dedupByLabel [] (executeQuery svc (svc.queries.getOccupationByLabel keyword))

/-- `KnowledgeGraphService.find_skills_by_keyword` (lines 155-166):
returns the formatted results directly — with NO deduplication. -/
def findSkillsByKeyword (svc : KGService) (keyword : String) :
    List (List (String × String)) :=
  executeQuery svc (svc.queries.searchSkillsByKeyword keyword)

/-- `KnowledgeGraphService.get_occupations_requiring_skill` (lines
168-179). -/
def getOccupationsRequiringSkill (svc : KGService) (skillName : String) :
    List (List (String × String)) :=
  executeQuery svc (svc.queries.getOccupationsForSkill skillName)

/-- The categorized skill lists of `get_occupation_skills`. -/
structure Categorized where
  essential : List (List (String × String))
  optionalSkills : List (List (String × String))
  required : List (List (String × String))
  all : List (List (String × String))

/-- `skill.get('skillType', 'required')`. -/
def skillTypeOf (r : List (String × String)) : String :=
  recGetD r "skillType" "required"

/-- `KnowledgeGraphService.get_occupation_skills` (lines 85-110): the
rows whose (defaulted) `skillType` is a category name are appended to
that category, in order; `'all'` aliases the full result list.  (A row
with `skillType == 'all'` would make the source append to the list being
iterated and never terminate; such rows do not occur and are not
modelled.) -/
def getOccupationSkills (svc : KGService) (uri : String) : Categorized :=
  let results := executeQuery svc (svc.queries.getSkillsForOccupation uri)
  ⟨results.filter (fun r => skillTypeOf r = "essential"),
   results.filter (fun r => skillTypeOf r = "optional"),
   results.filter (fun r => skillTypeOf r = "required"),
   results⟩

/-- Result of `get_occupation_complete_profile` (lines 112-153). -/
inductive Profile where
  | notFound (message : String)
  | found (occupation : List (String × String)) (skills : Categorized)
      (knowledge abilities technologies salaryData similarOccupations :
        List (List (String × String)))

/-- `KnowledgeGraphService.get_occupation_complete_profile` (lines
112-153): resolve the label via the first search hit; a missing hit or an
empty `occupation` URI gives a not-found result. -/
def getOccupationCompleteProfile (svc : KGService)
    (occupationLabel : String) : Profile :=
  match searchOccupations svc occupationLabel with
  | [] => .notFound ("No occupation found matching '" ++ occupationLabel ++ "'")
  | occupation :: _ =>
      let uri := recGet occupation "occupation"
      if uri = "" then .notFound "Occupation URI not found"
      else .found occupation (getOccupationSkills svc uri)
        (executeQuery svc (svc.queries.getKnowledgeForOccupation uri))
        (executeQuery svc (svc.queries.getAbilitiesForOccupation uri))
        (executeQuery svc (svc.queries.getTechnologiesForOccupation uri))
        (executeQuery svc (svc.queries.getOccupationSalaryData uri))
        (executeQuery svc (svc.queries.findSimilarOccupations uri 3))

/-- The skill-gap result dict of `calculate_skill_gap` (success fields
defaulted for the failure shape).  The source serializes the three
Python sets to lists in arbitrary order; they are modelled as the finite
sets themselves.  `skill_overlap_percentage` is modelled as the exact
rational before the source's final `round(x, 1)` on the float value. -/
structure GapResult where
  success : Bool
  message : String := ""
  current_occupation : List (String × String) := []
  target_occupation : List (String × String) := []
  transferable_skills : Finset String := ∅
  skills_to_acquire : Finset String := ∅
  obsolete_skills : Finset String := ∅
  skill_overlap_percentage : ℚ := 0
  total_current_skills : Nat := 0
  total_target_skills : Nat := 0
  total_to_acquire : Nat := 0

/-- The lowercased `skillLabel` set of a row list
(`set(s.get('skillLabel', '').lower() for s in ...)`). -/
def skillLabelSet (rows : List (List (String × String))) : Finset String :=
  (rows.map (fun r => pyLowerStr (recGet r "skillLabel"))).toFinset

/-- `KnowledgeGraphService.calculate_skill_gap` (lines 303-352). -/
def calculateSkillGap (svc : KGService) (cur tgt : String) : GapResult :=
  match getOccupationCompleteProfile svc cur,
      getOccupationCompleteProfile svc tgt with
  | .found co cs _ _ _ _ _, .found tro trs _ _ _ _ _ =>
      let currentSkills := skillLabelSet cs.all
      let targetSkills := skillLabelSet trs.all
      let skillsToAcquire := targetSkills \ currentSkills
      let transferableSkills := currentSkills ∩ targetSkills
      let obsoleteSkills := currentSkills \ targetSkills
      { success := true,
        current_occupation := co,
        target_occupation := tro,
        transferable_skills := transferableSkills,
        skills_to_acquire := skillsToAcquire,
        obsolete_skills := obsoleteSkills,
        skill_overlap_percentage :=
          if targetSkills = ∅ then 0
          else mkRat (transferableSkills.card * 100) targetSkills.card,
        total_current_skills := currentSkills.card,
        total_target_skills := targetSkills.card,
        total_to_acquire := skillsToAcquire.card }
  | _, _ => { success := false, message := "One or both occupations not found" }

/-- Resolution of an occupation name, exactly as
`get_occupation_complete_profile` performs it: first search hit, with a
non-empty `occupation` URI. -/
def resolveOcc (svc : KGService) (label : String) :
    Option (List (String × String) × String) :=
  match searchOccupations svc label with
  | [] => none
  | r :: _ =>
      let u := recGet r "occupation"
      if u = "" then none else some (r, u)

/-- `SFIAKnowledgeService._execute_query`'s degraded response
(`sfia_km_service.py` lines 83-107): the empty-bindings dict. -/
def emptyBindingsJ : J := .o [("results", .o [("bindings", .a [])])]

/-- `SFIAKnowledgeService._execute_query`: a disabled service or a store
exception yields the empty-bindings dict instead of raising. -/
def sfiaExecuteQuery (enabled : Bool) (raw : Except Unit J) : J :=
  if !enabled then emptyBindingsJ
  else
    match raw with
    | .error _ => emptyBindingsJ
    | .ok j => j

/-! ### Query-service lemmas (claims C1, C8, C9) -/

theorem profile_of_resolve_some {svc : KGService} {l : String}
    {r : List (String × String)} {u : String}
    (h : resolveOcc svc l = some (r, u)) :
    getOccupationCompleteProfile svc l
      = .found r (getOccupationSkills svc u)
        (executeQuery svc (svc.queries.getKnowledgeForOccupation u))
        (executeQuery svc (svc.queries.getAbilitiesForOccupation u))
        (executeQuery svc (svc.queries.getTechnologiesForOccupation u))
        (executeQuery svc (svc.queries.getOccupationSalaryData u))
        (executeQuery svc (svc.queries.findSimilarOccupations u 3)) := by
  rw [resolveOcc] at h
  rcases hs : searchOccupations svc l with _ | ⟨r0, rest⟩
  · rw [hs] at h
    simp at h
  · rw [hs] at h
    by_cases hu : recGet r0 "occupation" = ""
    · simp only [if_pos hu] at h
      simp at h
    · simp only [if_neg hu] at h
      injection h with h'
      injection h' with h1 h2
      subst h1
      subst h2
      simp only [getOccupationCompleteProfile, hs]
      rw [if_neg hu]

theorem profile_of_resolve_none {svc : KGService} {l : String}
    (h : resolveOcc svc l = none) :
    ∃ m, getOccupationCompleteProfile svc l = .notFound m := by
  rw [resolveOcc] at h
  rcases hs : searchOccupations svc l with _ | ⟨r0, rest⟩
  · exact ⟨_, by rw [getOccupationCompleteProfile, hs]⟩
  · rw [hs] at h
    by_cases hu : recGet r0 "occupation" = ""
    · exact ⟨_, by simp only [getOccupationCompleteProfile, hs]; rw [if_pos hu]⟩
    · simp only [if_neg hu] at h
      simp at h

theorem mkRat_mul100 (a b : Nat) :
    mkRat (a * 100) b = (a : ℚ) / b * 100 := by
  rw [Rat.mkRat_eq_divInt, Rat.divInt_eq_div]
  push_cast
  ring

/-- C1: whenever both occupation names resolve (each via the first search
hit with a non-empty URI), `calculate_skill_gap` returns exactly the
set-algebra of the two lowercased skill-label sets — transferable
`C ∩ T`, to-acquire `T \ C`, obsolete `C \ T` — and overlap percentage
`|C ∩ T| / |T| * 100` (0 for an empty target set; modelled as the exact
rational before the source's final one-decimal float rounding); when
either name fails to resolve it returns the not-found result with
`success = False`. -/
theorem C1_calculate_skill_gap (svc : KGService) (cur tgt : String) :
    (∀ rc uc rt ut,
      resolveOcc svc cur = some (rc, uc) →
      resolveOcc svc tgt = some (rt, ut) →
      (calculateSkillGap svc cur tgt).success = true ∧
      (calculateSkillGap svc cur tgt).current_occupation = rc ∧
      (calculateSkillGap svc cur tgt).target_occupation = rt ∧
      (calculateSkillGap svc cur tgt).transferable_skills
        = skillLabelSet (executeQuery svc (svc.queries.getSkillsForOccupation uc))
          ∩ skillLabelSet (executeQuery svc (svc.queries.getSkillsForOccupation ut)) ∧
      (calculateSkillGap svc cur tgt).skills_to_acquire
        = skillLabelSet (executeQuery svc (svc.queries.getSkillsForOccupation ut))
          \ skillLabelSet (executeQuery svc (svc.queries.getSkillsForOccupation uc)) ∧
      (calculateSkillGap svc cur tgt).obsolete_skills
        = skillLabelSet (executeQuery svc (svc.queries.getSkillsForOccupation uc))
          \ skillLabelSet (executeQuery svc (svc.queries.getSkillsForOccupation ut)) ∧
      (calculateSkillGap svc cur tgt).skill_overlap_percentage
        = (if skillLabelSet (executeQuery svc (svc.queries.getSkillsForOccupation ut)) = ∅
           then 0
           else ((skillLabelSet (executeQuery svc (svc.queries.getSkillsForOccupation uc))
              ∩ skillLabelSet (executeQuery svc (svc.queries.getSkillsForOccupation ut))).card : ℚ)
             / (skillLabelSet (executeQuery svc (svc.queries.getSkillsForOccupation ut))).card
             * 100)) ∧
    ((resolveOcc svc cur = none ∨ resolveOcc svc tgt = none) →
      (calculateSkillGap svc cur tgt).success = false) := by
  constructor
  · intro rc uc rt ut h1 h2
    have hp1 := profile_of_resolve_some h1
    have hp2 := profile_of_resolve_some h2
    refine ⟨?_, ?_, ?_, ?_, ?_, ?_, ?_⟩ <;>
      simp only [calculateSkillGap, hp1, hp2, getOccupationSkills]
    · by_cases hT : skillLabelSet (executeQuery svc
          (svc.queries.getSkillsForOccupation ut)) = ∅
      · rw [if_pos hT, if_pos hT]
      · rw [if_neg hT, if_neg hT, mkRat_mul100]
  · intro h
    rcases h with h | h
    · obtain ⟨m, hm⟩ := profile_of_resolve_none h
      cases hp2 : getOccupationCompleteProfile svc tgt <;>
        simp [calculateSkillGap, hm, hp2]
    · obtain ⟨m, hm⟩ := profile_of_resolve_none h
      cases hp1 : getOccupationCompleteProfile svc cur <;>
        simp [calculateSkillGap, hp1, hm]

/-- Opaque query-template builders for concrete witness services: each
template maps to a distinct string. -/
def wQueries : KGQueries :=
  ⟨(fun kw => "occ:" ++ kw), (fun u => "skills:" ++ u), (fun u => "kn:" ++ u),
   (fun u => "ab:" ++ u), (fun u => "tech:" ++ u), (fun u => "sal:" ++ u),
   (fun u n => "sim:" ++ u ++ ":" ++ toString n), (fun kw => "sk:" ++ kw),
   (fun s => "occsk:" ++ s)⟩

/-- A SPARQL JSON response carrying the given rows. -/
def mkResp (rows : List (List (String × String))) : J :=
  .o [("results", .o [("bindings", .a (rows.map (fun row =>
    .o (row.map (fun kv => (kv.1, .o [("value", .s kv.2)]))))))])]

/-- Witness store for C1 (the spec's Scenario 3): occupation `A` has
skills `{X, Y, Z}`, occupation `B` has skills `{Y, Z, W}`. -/
def wRawGap : String → Except Unit J := fun q =>
  if q = "occ:A" then .ok (mkResp [[("label", "A"), ("occupation", "uriA")]])
  else if q = "occ:B" then .ok (mkResp [[("label", "B"), ("occupation", "uriB")]])
  else if q = "skills:uriA" then .ok (mkResp
    [[("skillLabel", "X")], [("skillLabel", "Y")], [("skillLabel", "Z")]])
  else if q = "skills:uriB" then .ok (mkResp
    [[("skillLabel", "Y")], [("skillLabel", "Z")], [("skillLabel", "W")]])
  else .ok (mkResp [])

def wSvcGap : KGService := ⟨wQueries, wRawGap⟩

/-- Witness for C1 on the Scenario-3 store. -/
theorem C1_witness :
    (calculateSkillGap wSvcGap "A" "B").success = true ∧
    (calculateSkillGap wSvcGap "A" "B").current_occupation
      = [("label", "A"), ("occupation", "uriA")] ∧
    (calculateSkillGap wSvcGap "A" "B").target_occupation
      = [("label", "B"), ("occupation", "uriB")] ∧
    (calculateSkillGap wSvcGap "A" "B").transferable_skills
      = skillLabelSet (executeQuery wSvcGap (wSvcGap.queries.getSkillsForOccupation "uriA"))
        ∩ skillLabelSet (executeQuery wSvcGap (wSvcGap.queries.getSkillsForOccupation "uriB")) ∧
    (calculateSkillGap wSvcGap "A" "B").skills_to_acquire
      = skillLabelSet (executeQuery wSvcGap (wSvcGap.queries.getSkillsForOccupation "uriB"))
        \ skillLabelSet (executeQuery wSvcGap (wSvcGap.queries.getSkillsForOccupation "uriA")) ∧
    (calculateSkillGap wSvcGap "A" "B").obsolete_skills
      = skillLabelSet (executeQuery wSvcGap (wSvcGap.queries.getSkillsForOccupation "uriA"))
        \ skillLabelSet (executeQuery wSvcGap (wSvcGap.queries.getSkillsForOccupation "uriB")) ∧
    (calculateSkillGap wSvcGap "A" "B").skill_overlap_percentage
      = (if skillLabelSet (executeQuery wSvcGap (wSvcGap.queries.getSkillsForOccupation "uriB")) = ∅
         then 0
         else ((skillLabelSet (executeQuery wSvcGap (wSvcGap.queries.getSkillsForOccupation "uriA"))
            ∩ skillLabelSet (executeQuery wSvcGap (wSvcGap.queries.getSkillsForOccupation "uriB"))).card : ℚ)
           / (skillLabelSet (executeQuery wSvcGap (wSvcGap.queries.getSkillsForOccupation "uriB"))).card
           * 100) :=
  (C1_calculate_skill_gap wSvcGap "A" "B").1
    [("label", "A"), ("occupation", "uriA")] "uriA"
    [("label", "B"), ("occupation", "uriB")] "uriB"
    (by decide) (by decide)

/-! ### C8: result deduplication by lowercase label -/

theorem dedupByLabel_spec :
    ∀ (rows : List (List (String × String))) (seen : List String),
      ((dedupByLabel seen rows).map
        (fun r => pyLowerStr (recGet r "label"))).Nodup ∧
      ∀ l ∈ (dedupByLabel seen rows).map
        (fun r => pyLowerStr (recGet r "label")), l ∉ seen := by
  intro rows
  induction rows with
  | nil => intro seen; simp [dedupByLabel]
  | cons r rest ih =>
    intro seen
    rw [dedupByLabel]
    by_cases hl : pyLowerStr (recGet r "label") ∈ seen
    · simp only [if_pos hl]
      exact ih seen
    · simp only [if_neg hl, List.map_cons, List.nodup_cons]
      obtain ⟨hnd, hnot⟩ := ih (pyLowerStr (recGet r "label") :: seen)
      refine ⟨⟨?_, hnd⟩, ?_⟩
      · intro hc
        exact hnot _ hc (List.mem_cons_self _ _)
      · intro l hmem
        rcases List.mem_cons.mp hmem with heq | hmem'
        · exact heq ▸ hl
        · intro hc
          exact hnot l hmem' (List.mem_cons_of_mem _ hc)

/-- C8 (amended): `search_occupations` deduplicates its result list by
lowercase label — the returned list contains at most one record per
distinct lowercase label.  `find_skills_by_keyword` performs no such
deduplication (see the counterexample). -/
theorem C8_search_occupations_dedups (svc : KGService) (keyword : String) :
    ((searchOccupations svc keyword).map
      (fun r => pyLowerStr (recGet r "label"))).Nodup := by
  rw [searchOccupations]
  exact (dedupByLabel_spec _ []).1

/-- Store for the C8 counterexample: the skill-keyword query returns two
records whose labels agree up to case. -/
def wSvcDup : KGService :=
  ⟨wQueries, fun q =>
    if q = "sk:python" then
      .ok (mkResp [[("label", "Python")], [("label", "PYTHON")]])
    else .ok (mkResp [])⟩

/-- C8 (counterexample): `find_skills_by_keyword` does NOT deduplicate by
lowercase label — it returns `_execute_query`'s result list unchanged, so
two records with labels `"Python"` and `"PYTHON"` (same lowercase label)
both come back.  `search_occupations` on the same rows would keep only
the first. -/
theorem C8_counterexample :
    ¬ (((findSkillsByKeyword wSvcDup "python").map
        (fun r => pyLowerStr (recGet r "label"))).Nodup) ∧
    (findSkillsByKeyword wSvcDup "python").length = 2 := by
  constructor
  · decide
  · decide

/-! ### C9: graceful degradation to empty results -/

theorem formatSparqlResults_eq (j : J) :
    formatSparqlResults j = ((bindingsOf j).getD []).map bindingRow := by
  cases j with
  | s v => rfl
  | a xs => rfl
  | o fields =>
    cases fields with
    | nil => rfl
    | cons f fs =>
      rcases hres : jLookup (f :: fs) "results" with _ | jv
      · simp [formatSparqlResults, bindingsOf, hres]
      · cases jv with
        | s v => simp [formatSparqlResults, bindingsOf, hres]
        | a xs => simp [formatSparqlResults, bindingsOf, hres]
        | o rf =>
          rcases hb : jLookup rf "bindings" with _ | bv
          · simp [formatSparqlResults, bindingsOf, hres, hb]
          · cases bv with
            | s v => simp [formatSparqlResults, bindingsOf, hres, hb]
            | a bs => simp [formatSparqlResults, bindingsOf, hres, hb]
            | o g => simp [formatSparqlResults, bindingsOf, hres, hb]

/-- C9: when the store call raises (unreachable store, non-success
response — the `except` branch) or returns zero bindings, every query
function returns an empty list instead of raising: `_execute_query`
itself, `search_occupations`, `find_skills_by_keyword` and
`get_occupations_requiring_skill`; and the SFIA service's
`_execute_query` degrades to the empty-bindings response when disabled or
on an exception. -/
theorem C9_degrade_to_empty (svc : KGService) (q kw sk : String)
    (enabled : Bool) (sfiaRaw : Except Unit J)
    (hall : ∀ q', svc.raw q' = .error () ∨
      ∃ j, svc.raw q' = .ok j ∧ bindingsOf j = some [])
    (hs : enabled = false ∨ sfiaRaw = .error ()) :
    executeQuery svc q = [] ∧
    searchOccupations svc kw = [] ∧
    findSkillsByKeyword svc kw = [] ∧
    getOccupationsRequiringSkill svc sk = [] ∧
    sfiaExecuteQuery enabled sfiaRaw = emptyBindingsJ := by
  have hexec : ∀ q0, executeQuery svc q0 = [] := by
    intro q0
    rcases hall q0 with h | ⟨j, hj, hb⟩
    · simp only [executeQuery, h]
    · simp only [executeQuery, hj]
      rw [formatSparqlResults_eq, hb]
      rfl
  refine ⟨hexec q, ?_, hexec _, hexec _, ?_⟩
  · rw [searchOccupations, hexec]
    rfl
  · rcases hs with h | h
    · rw [h]
      rfl
    · rw [h]
      cases enabled <;> rfl

/-- Witness for C9: a service whose every store call raises, and a
disabled SFIA service. -/
theorem C9_witness :
    executeQuery ⟨wQueries, fun _ => .error ()⟩ "q" = [] ∧
    searchOccupations ⟨wQueries, fun _ => .error ()⟩ "nurse" = [] ∧
    findSkillsByKeyword ⟨wQueries, fun _ => .error ()⟩ "nurse" = [] ∧
    getOccupationsRequiringSkill ⟨wQueries, fun _ => .error ()⟩ "triage" = [] ∧
    sfiaExecuteQuery false (.error ()) = emptyBindingsJ :=
  C9_degrade_to_empty ⟨wQueries, fun _ => .error ()⟩ "q" "nurse" "triage"
    false (.error ()) (fun _ => Or.inl rfl) (Or.inl rfl)

end Dechivo
